import Mathlib

/-!
Shallow embedding of the JustPlug plug-in manager core
(`src/pluginmanager.cpp`, `src/private/pluginmanagerprivate.h`,
`src/private/graph.h`, `src/private/plugin.h`, `src/private/tribool.h`,
`sharedlibrary.h`) together with theorems settling the frozen claims
about its specification.

Conventions:
* C++ recursion that is not structurally terminating (the dependency
  resolver, the DFS of the topological sort) is embedded with an explicit
  fuel parameter; `none` means the execution did not complete within the
  given fuel (in particular, a diverging execution yields `none` for
  every fuel).  Undefined behaviour (dereferencing a null or
  default-inserted `shared_ptr`, out-of-range vector indexing) is also
  embedded as `none`.
* `std::unordered_map<std::string, PluginPtr>` is embedded as an
  association list `List (String × Plugin)`; its (unspecified) iteration
  order is the list order, and keys are unique in every state the
  manager can produce.
* External collaborators that the repository does not contain
  (the semantic-version library `version/version.h`, the JSON decoder
  `json/json.hpp`, the platform `dl*` functions and the filesystem
  walker) are modelled from the spec, as marked in their doc comments.
-/

set_option maxHeartbeats 1000000

/-- The three-valued flag of `private/tribool.h` (`TriBool::State`).
`_d = 0` is `False`, `1` is `True`, `2` is `Indeterminate` (the default). -/
inductive TriBool where
  | False
  | True
  | Indeterminate
deriving DecidableEq

/-- `TriBool::indeterminate()`. -/
def TriBool.indeterminate : TriBool → Bool
  | TriBool.Indeterminate => true
  | _ => false

/-- `TriBool::operator==(const bool&)`: comparison of the tri-state with a
C++ `bool` (`Indeterminate` equals neither). -/
def TriBool.eqBool : TriBool → Bool → Bool
  | TriBool.True, true => true
  | TriBool.False, false => true
  | _, _ => false

/-- `jp::ReturnCode::Type` (`include/pluginmanager.h`). -/
inductive ReturnCodeT where
  | SUCCESS
  | UNKNOWN_ERROR
  | SEARCH_NOTHING_FOUND
  | SEARCH_NAME_ALREADY_EXISTS
  | SEARCH_CANNOT_PARSE_METADATA
  | SEARCH_LISTFILES_ERROR
  | LOAD_DEPENDENCY_BAD_VERSION
  | LOAD_DEPENDENCY_NOT_FOUND
  | LOAD_DEPENDENCY_CYCLE
  | UNLOAD_NOT_ALL
deriving DecidableEq

/-- `ReturnCode::operator bool()`: a code converts to `true` iff it is
`SUCCESS`; `if(!retCode)` in the source is `retCode ≠ SUCCESS` here. -/
def ReturnCodeT.toBool : ReturnCodeT → Bool
  | ReturnCodeT.SUCCESS => true
  | _ => false

/-- A parsed semantic version.  Modelled from the spec: the actual parser
lives in the external `version/version.h` library, which is not part of
this repository. -/
structure SemVer where
  major : Nat
  minor : Nat
  patch : Nat
deriving DecidableEq

/-- Splits a character list on `'.'`. -/
def splitDots : List Char → List (List Char)
  | [] => [[]]
  | c :: rest =>
      let tail := splitDots rest
      if c = '.' then [] :: tail
      else
        match tail with
        | [] => [[c]]
        | seg :: segs => (c :: seg) :: segs

/-- Reads a decimal numeral; any non-digit makes the component `0`. -/
def decimalValue (cs : List Char) : Nat :=
  if cs.all (fun c => c.isDigit) then
    cs.foldl (fun acc c => acc * 10 + (c.toNat - '0'.toNat)) 0
  else 0

/-- Modelled from the spec: semantic-version parsing, external to the
repository.  Reads up to three dot-separated decimal components, missing
or malformed components parse as `0`. -/
def parseSemVer (s : String) : SemVer :=
  match (splitDots s.data).map decimalValue with
  | [] => ⟨0, 0, 0⟩
  | [a] => ⟨a, 0, 0⟩
  | [a, b] => ⟨a, b, 0⟩
  | a :: b :: c :: _ => ⟨a, b, c⟩

/-- Modelled from the spec: `Version(have).compatible(want)` of the
external `version/version.h` library — "same major, and `have ≥ want`
within that major" (spec §1 and §6). -/
def versionCompatible (haveV wantV : String) : Bool :=
  let h := parseSemVer haveV
  let w := parseSemVer wantV
  h.major = w.major && (h.minor > w.minor || (h.minor = w.minor && h.patch ≥ w.patch))

/-- `PluginInfoStd::Dependency` (`private/plugin.h`). -/
structure Dependency where
  name : String
  version : String
deriving DecidableEq

/-- `PluginInfoStd` (`private/plugin.h`): the decoded metadata record. -/
structure PluginInfoStd where
  name : String := ""
  prettyName : String := ""
  version : String := ""
  author : String := ""
  url : String := ""
  license : String := ""
  copyright : String := ""
  dependencies : List Dependency := []
deriving DecidableEq

/-- The image behind a successfully opened shared object.  Modelled from
the spec: the platform dynamic-library facility is an external
collaborator; an image is characterised by the set of symbols it
resolves, the values of the two data symbols the manager reads, the
decoded result of its metadata blob (JSON decoding is likewise
external), and whether the OS will actually free the handle on
`dlclose`. -/
structure LibImage where
  symbols : List String := []
  jpName : String := ""
  decodedMeta : PluginInfoStd := {}
  closeSucceeds : Bool := true
deriving DecidableEq

/-- `jp::SharedLibrary` (`sharedlibrary.h`): a handle plus the persistent
`_lastError` string. -/
structure SharedLibrary where
  handle : Option LibImage := none
  lastError : String := ""
deriving DecidableEq

/-- `SharedLibrary::isLoaded()`. -/
def SharedLibrary.isLoaded (l : SharedLibrary) : Bool :=
  l.handle.isSome

/-- Modelled from the spec: the error text `dlerror()` reports for an
unresolved symbol; its exact wording is platform chosen, but it is a
human-readable, non-empty message naming the symbol. -/
def dlsymErrorText (symbolName : String) : String :=
  "undefined symbol: " ++ symbolName

/-- `SharedLibrary::getImpl(symbolName)` (`sharedlibrary.h`, Linux
branch): clears `_lastError`, asks the dynamic linker for the symbol, on
failure records the `dlerror` text and yields no address.  The returned
`Bool` stands for the non-null `void*`. -/
def SharedLibrary.getImpl (l : SharedLibrary) (symbolName : String) :
    SharedLibrary × Bool :=
  let l0 : SharedLibrary := { l with lastError := "" }
  match l.handle with
  | some img =>
      if symbolName ∈ img.symbols then (l0, true)
      else ({ l0 with lastError := dlsymErrorText symbolName }, false)
  | none => ({ l0 with lastError := dlsymErrorText symbolName }, false)

/-- `SharedLibrary::hasSymbol(symbolName)`: saves `_lastError`, probes the
symbol through `getImpl`, reads success off the (empty) error string and
restores the saved error text. -/
def SharedLibrary.hasSymbol (l : SharedLibrary) (symbolName : String) :
    SharedLibrary × Bool :=
  let error := l.lastError
  let l1 := (l.getImpl symbolName).fst
  let has := l1.lastError.isEmpty
  ({ l1 with lastError := error }, has)

/-- `SharedLibrary::errorString()`. -/
def SharedLibrary.errorString (l : SharedLibrary) : String :=
  l.lastError

/-- Whether the loaded image resolves a symbol (the semantics of a
successful `dlsym`). -/
def SharedLibrary.resolves (l : SharedLibrary) (symbolName : String) : Prop :=
  ∃ img, l.handle = some img ∧ symbolName ∈ img.symbols

instance (l : SharedLibrary) (s : String) : Decidable (l.resolves s) := by
  unfold SharedLibrary.resolves
  cases l.handle with
  | none => exact isFalse (by simp)
  | some img => exact decidable_of_iff (s ∈ img.symbols) (by simp)

/-- `jp_private::Plugin` (`private/plugin.h`).  `iplugin` abstracts the
`std::shared_ptr<IPlugin>` to its null test (instance present or not);
`creator` is dropped (its only observable effect is creating the
instance). -/
structure Plugin where
  iplugin : Bool := false
  lib : SharedLibrary := {}
  path : String := ""
  info : PluginInfoStd := {}
  dependenciesExists : TriBool := TriBool.Indeterminate
  graphId : Int := -1
deriving DecidableEq

/-- The plug-in registry `PlugMgrPrivate::pluginsMap`, embedded as an
association list; list order models the container's iteration order. -/
abbrev PluginMap := List (String × Plugin)

/-- `pluginsMap.count(key) == 1` / map lookup (`unordered_map::at`,
`operator[]` on a present key). -/
def PluginMap.lookup : PluginMap → String → Option Plugin
  | [], _ => none
  | (k, p) :: rest, key => if k = key then some p else PluginMap.lookup rest key

/-- `pluginsMap.count(key)` as a presence test. -/
def PluginMap.containsKey (m : PluginMap) (key : String) : Bool :=
  (m.lookup key).isSome

/-- Point update of the plug-in stored under an (existing) key; models a
write through the `shared_ptr` held in the map. -/
def PluginMap.update : PluginMap → String → (Plugin → Plugin) → PluginMap
  | [], _, _ => []
  | (k, p) :: rest, key, f =>
      if k = key then (k, f p) :: rest else (k, p) :: PluginMap.update rest key f

/-- `pluginsMap.erase(key)`. -/
def PluginMap.eraseKey : PluginMap → String → PluginMap
  | [], _ => []
  | (k, p) :: rest, key =>
      if k = key then rest else (k, p) :: PluginMap.eraseKey rest key

/-- Write of `plugin->dependenciesExists`. -/
def PluginMap.setVerdict (m : PluginMap) (key : String) (v : TriBool) : PluginMap :=
  m.update key (fun p => { p with dependenciesExists := v })

/-- Write of `plugin->graphId`. -/
def PluginMap.setGraphId (m : PluginMap) (key : String) (v : Int) : PluginMap :=
  m.update key (fun p => { p with graphId := v })

/-- The dependency loop of `checkDependencies`: walks the declared
dependencies in order; on the first missing or incompatible dependency
records the `false` verdict and stops; otherwise recursively checks the
dependency's record (through `check`, the recursion at one fuel less)
and propagates any failure; after a full pass records the `true`
verdict. -/
def checkDepList (check : PluginMap → String → Option (ReturnCodeT × PluginMap)) :
    PluginMap → String → List Dependency → Option (ReturnCodeT × PluginMap)
  | m, key, [] => some (ReturnCodeT.SUCCESS, m.setVerdict key TriBool.True)
  | m, key, d :: ds =>
      match m.lookup d.name with
      | none =>
          some (ReturnCodeT.LOAD_DEPENDENCY_NOT_FOUND, m.setVerdict key TriBool.False)
      | some dp =>
          if ¬versionCompatible dp.info.version d.version then
            some (ReturnCodeT.LOAD_DEPENDENCY_BAD_VERSION, m.setVerdict key TriBool.False)
          else
            match check m d.name with
            | none => none
            | some (rc, m') =>
                if ¬rc.toBool then some (rc, m')
                else checkDepList check m' key ds

/-- `PlugMgrPrivate::checkDependencies` (`pluginmanagerprivate` impl,
`src/unnamed/part_009` lines 245–281), fuel-instrumented.  The plugin is
addressed by its registry key (the C++ function receives the
`shared_ptr` stored in `pluginsMap`); `none` means the execution did not
complete within `fuel` (the C++ recursion never completes on such
inputs) — the reporter callback is ignored, it does not influence state
or result. -/
def checkDependencies : Nat → PluginMap → String → Option (ReturnCodeT × PluginMap)
  | 0, _, _ => none
  | fuel + 1, m, key =>
      match m.lookup key with
      | none => none
      | some p =>
          if ¬p.dependenciesExists.indeterminate then
            some
              (if p.dependenciesExists.eqBool true then ReturnCodeT.SUCCESS
               else if ¬m.containsKey p.info.name then ReturnCodeT.LOAD_DEPENDENCY_NOT_FOUND
               else ReturnCodeT.LOAD_DEPENDENCY_BAD_VERSION, m)
          else
            checkDepList (checkDependencies fuel) m key p.info.dependencies

/-! ### Observations on registries and evolution of the verdict fields

`checkDependencies` mutates nothing but the `dependenciesExists` fields;
the lemmas below capture this frame property together with the
monotonicity of verdicts, and are the backbone of the load-order
theorems. -/

/-- A plug-in with its verdict field blanked; two maps with equal erased
images agree on everything except verdicts. -/
def Plugin.eraseVerdict (p : Plugin) : Plugin :=
  { p with dependenciesExists := TriBool.Indeterminate }

/-- The registry with every verdict blanked. -/
def PluginMap.verdictErased (m : PluginMap) : PluginMap :=
  m.map (fun kp => (kp.1, kp.2.eraseVerdict))

/-- `m'` differs from `m` at most in verdict fields. -/
def VFrame (m m' : PluginMap) : Prop :=
  m'.verdictErased = m.verdictErased

/-- The verdict stored under a key. -/
def PluginMap.verdict (m : PluginMap) (k : String) : Option TriBool :=
  (m.lookup k).map Plugin.dependenciesExists

/-- Determinate verdicts of `m` persist in `m'`. -/
def VMono (m m' : PluginMap) : Prop :=
  ∀ k v, m.verdict k = some v → v ≠ TriBool.Indeterminate → m'.verdict k = some v

/-- The dependency `d` is satisfied in `m`: a record exists under
`d.name`, its version is compatible, and its own verdict is `True`. -/
def DepOK (m : PluginMap) (d : Dependency) : Prop :=
  ∃ q, m.lookup d.name = some q ∧
    versionCompatible q.info.version d.version = true ∧
    q.dependenciesExists = TriBool.True

/-- Soundness of `True` verdicts: every record marked `True` has all of
its declared dependencies satisfied.  This holds in every state the
manager can reach (fresh records are `Indeterminate`, and a `True` is
only ever written after a full successful pass). -/
def GoodTrue (m : PluginMap) : Prop :=
  ∀ k p, m.lookup k = some p → p.dependenciesExists = TriBool.True →
    ∀ d ∈ p.info.dependencies, DepOK m d

/-- A stable (verdict-independent) defect of a record: some declared
dependency is missing from the registry or present with an incompatible
version. -/
def StaticBad (m : PluginMap) (k : String) : Prop :=
  ∃ p, m.lookup k = some p ∧ ∃ d ∈ p.info.dependencies,
    m.lookup d.name = none ∨
      ∃ q, m.lookup d.name = some q ∧ versionCompatible q.info.version d.version = false

/-- Relative soundness of `False` verdicts with respect to a reference
state `m0` (the entry of the current resolver pass): every record marked
`False` was already `False` at `m0` or has a stable defect.  A record
may keep a stale `False` from an earlier pass even after a later search
installed its once-missing dependency, so only this relative form is an
invariant of the pass. -/
def FBRel (m0 m : PluginMap) : Prop :=
  ∀ k, m.verdict k = some TriBool.False →
    m0.verdict k = some TriBool.False ∨ StaticBad m k

/-- A record is blocked in `m` when some declared dependency is missing,
incompatible, marked `False`, or itself blocked.  A blocked record can
never be marked `True` in a sound registry. -/
inductive Blocked : PluginMap → String → Prop where
  | missing {m : PluginMap} {key : String} {p : Plugin} {d : Dependency} :
      m.lookup key = some p → d ∈ p.info.dependencies →
      m.lookup d.name = none → Blocked m key
  | incompat {m : PluginMap} {key : String} {p : Plugin} {d : Dependency} {q : Plugin} :
      m.lookup key = some p → d ∈ p.info.dependencies →
      m.lookup d.name = some q → versionCompatible q.info.version d.version = false →
      Blocked m key
  | badDep {m : PluginMap} {key : String} {p : Plugin} {d : Dependency} {q : Plugin} :
      m.lookup key = some p → d ∈ p.info.dependencies →
      m.lookup d.name = some q → q.dependenciesExists = TriBool.False →
      Blocked m key
  | via {m : PluginMap} {key : String} {p : Plugin} {d : Dependency} :
      m.lookup key = some p → d ∈ p.info.dependencies →
      Blocked m d.name → Blocked m key

/-- Blocked, or already marked `False`: the ways a `checkDependencies`
failure leaves its record. -/
def BOF (m : PluginMap) (k : String) : Prop :=
  m.verdict k = some TriBool.False ∨ Blocked m k

/-- Postcondition of one completed `checkDependencies` call starting
from a sound registry (`m0` is the entry state of the enclosing
resolver pass). -/
def SoundPost (m0 m : PluginMap) (key : String) (rc : ReturnCodeT) (m' : PluginMap) : Prop :=
  GoodTrue m' ∧ FBRel m0 m' ∧ VMono m m' ∧
    (rc = ReturnCodeT.SUCCESS → m'.verdict key = some TriBool.True) ∧
    (rc ≠ ReturnCodeT.SUCCESS → BOF m' key)

/-! ### Association-list lemmas -/

theorem PluginMap.lookup_update_self (m : PluginMap) (key : String) (f : Plugin → Plugin) :
    (m.update key f).lookup key = (m.lookup key).map f := by
  induction m with
  | nil => rfl
  | cons kp rest ih =>
      obtain ⟨k, p⟩ := kp
      by_cases hk : k = key
      · simp [PluginMap.update, PluginMap.lookup, hk]
      · simp [PluginMap.update, PluginMap.lookup, hk, ih]

theorem PluginMap.lookup_update_ne (m : PluginMap) (key k : String) (f : Plugin → Plugin)
    (hne : key ≠ k) : (m.update key f).lookup k = m.lookup k := by
  induction m with
  | nil => rfl
  | cons kp rest ih =>
      obtain ⟨k0, p⟩ := kp
      by_cases hk : k0 = key
      · subst hk
        simp [PluginMap.update, PluginMap.lookup, hne]
      · simp [PluginMap.update, PluginMap.lookup, hk, ih]

theorem PluginMap.lookup_verdictErased (m : PluginMap) (k : String) :
    m.verdictErased.lookup k = (m.lookup k).map Plugin.eraseVerdict := by
  induction m with
  | nil => rfl
  | cons kp rest ih =>
      obtain ⟨k0, p⟩ := kp
      by_cases hk : k0 = k
      · simp [PluginMap.verdictErased, PluginMap.lookup, hk]
      · simp [PluginMap.verdictErased, PluginMap.lookup, hk] at ih ⊢
        exact ih

theorem Plugin.eraseVerdict_fields {p p' : Plugin}
    (h : p'.eraseVerdict = p.eraseVerdict) :
    p'.iplugin = p.iplugin ∧ p'.lib = p.lib ∧ p'.path = p.path ∧
      p'.info = p.info ∧ p'.graphId = p.graphId := by
  cases p; cases p'
  simp [Plugin.eraseVerdict] at h
  simp [h]

theorem VFrame.refl_vf (m : PluginMap) : VFrame m m := rfl

theorem VFrame.trans_vf {a b c : PluginMap} (h1 : VFrame a b) (h2 : VFrame b c) :
    VFrame a c := by
  unfold VFrame at *
  rw [h2, h1]

theorem VFrame.lookup_erased {m m' : PluginMap} (h : VFrame m m') (k : String) :
    (m'.lookup k).map Plugin.eraseVerdict = (m.lookup k).map Plugin.eraseVerdict := by
  rw [← PluginMap.lookup_verdictErased, ← PluginMap.lookup_verdictErased, h]

theorem VFrame.lookup_some_vf {m m' : PluginMap} (h : VFrame m m') {k : String} {p : Plugin}
    (hp : m.lookup k = some p) :
    ∃ p', m'.lookup k = some p' ∧ p'.eraseVerdict = p.eraseVerdict := by
  have := h.lookup_erased k
  rw [hp] at this
  cases hq : m'.lookup k with
  | none => rw [hq] at this; simp at this
  | some p' =>
      rw [hq] at this
      simp at this
      exact ⟨p', rfl, this⟩

theorem VFrame.lookup_none_vf {m m' : PluginMap} (h : VFrame m m') {k : String}
    (hk : m.lookup k = none) : m'.lookup k = none := by
  have := h.lookup_erased k
  rw [hk] at this
  cases hq : m'.lookup k with
  | none => rfl
  | some p' => rw [hq] at this; simp at this

/-- `m'` agrees with `m` on key presence and on the `info` field of
every record (weaker than `VFrame`: verdicts and `graphId`s may
differ). -/
def InfoFrame (m m' : PluginMap) : Prop :=
  ∀ k, (m'.lookup k).map Plugin.info = (m.lookup k).map Plugin.info

theorem InfoFrame.lookup_some_inf {m m' : PluginMap} (h : InfoFrame m m') {k : String}
    {p : Plugin} (hp : m.lookup k = some p) :
    ∃ p', m'.lookup k = some p' ∧ p'.info = p.info := by
  have := h k
  rw [hp] at this
  cases hq : m'.lookup k with
  | none => rw [hq] at this; simp at this
  | some p' =>
      rw [hq] at this
      simp at this
      exact ⟨p', rfl, this⟩

theorem InfoFrame.lookup_none_inf {m m' : PluginMap} (h : InfoFrame m m') {k : String}
    (hk : m.lookup k = none) : m'.lookup k = none := by
  have := h k
  rw [hk] at this
  cases hq : m'.lookup k with
  | none => rfl
  | some p' => rw [hq] at this; simp at this

theorem VFrame.toInfoFrame_vf {m m' : PluginMap} (h : VFrame m m') : InfoFrame m m' := by
  intro k
  have := h.lookup_erased k
  cases h1 : m.lookup k with
  | none => simp [VFrame.lookup_none_vf h h1, h1]
  | some p =>
      obtain ⟨p', hp', he⟩ := h.lookup_some_vf h1
      obtain ⟨-, -, -, hinfo, -⟩ := Plugin.eraseVerdict_fields he
      simp [hp', h1, hinfo]

theorem InfoFrame.refl_inf (m : PluginMap) : InfoFrame m m := fun _ => rfl

theorem InfoFrame.trans_inf {a b c : PluginMap} (h1 : InfoFrame a b) (h2 : InfoFrame b c) :
    InfoFrame a c := fun k => (h2 k).trans (h1 k)

theorem VFrame_setVerdict (m : PluginMap) (key : String) (v : TriBool) :
    VFrame m (m.setVerdict key v) := by
  unfold VFrame PluginMap.setVerdict
  induction m with
  | nil => rfl
  | cons kp rest ih =>
      obtain ⟨k0, p⟩ := kp
      by_cases hk : k0 = key
      · simp [PluginMap.update, hk, PluginMap.verdictErased, Plugin.eraseVerdict]
      · simp [PluginMap.update, hk, PluginMap.verdictErased] at ih ⊢
        exact ih

theorem PluginMap.lookup_setVerdict_self (m : PluginMap) (key : String) (v : TriBool) :
    (m.setVerdict key v).lookup key
      = (m.lookup key).map (fun p => { p with dependenciesExists := v }) :=
  PluginMap.lookup_update_self m key _

theorem PluginMap.lookup_setVerdict_ne (m : PluginMap) (key k : String) (v : TriBool)
    (h : key ≠ k) : (m.setVerdict key v).lookup k = m.lookup k :=
  PluginMap.lookup_update_ne m key k _ h

theorem PluginMap.verdict_setVerdict_self (m : PluginMap) (key : String) (v : TriBool) :
    (m.setVerdict key v).verdict key = (m.verdict key).map (fun _ => v) := by
  unfold PluginMap.verdict
  rw [PluginMap.lookup_setVerdict_self]
  cases m.lookup key <;> rfl

theorem PluginMap.verdict_setVerdict_ne (m : PluginMap) (key k : String) (v : TriBool)
    (h : key ≠ k) : (m.setVerdict key v).verdict k = m.verdict k := by
  unfold PluginMap.verdict
  rw [PluginMap.lookup_setVerdict_ne m key k v h]

theorem VMono.refl_vm (m : PluginMap) : VMono m m := fun _ _ h _ => h

theorem VMono.trans_vm {a b c : PluginMap} (h1 : VMono a b) (h2 : VMono b c) :
    VMono a c := fun k v hv hne => h2 k v (h1 k v hv hne) hne

/-! ### Stability lemmas for the soundness invariants -/

theorem DepOK.lift_dep {m m' : PluginMap} (hf : InfoFrame m m') (hm : VMono m m')
    {d : Dependency} (h : DepOK m d) : DepOK m' d := by
  obtain ⟨q, hq, hc, ht⟩ := h
  obtain ⟨q', hq', hinfo⟩ := hf.lookup_some_inf hq
  have hv : m'.verdict d.name = some TriBool.True := by
    apply hm
    · simp [PluginMap.verdict, hq, ht]
    · simp
  unfold PluginMap.verdict at hv
  rw [hq'] at hv
  simp at hv
  exact ⟨q', hq', by rw [hinfo, hc], hv⟩

theorem StaticBad.lift_sb {m m' : PluginMap} (hf : InfoFrame m m') {k : String}
    (h : StaticBad m k) : StaticBad m' k := by
  obtain ⟨p, hp, d, hd, hbad⟩ := h
  obtain ⟨p', hp', hinfo⟩ := hf.lookup_some_inf hp
  refine ⟨p', hp', d, by rw [hinfo]; exact hd, ?_⟩
  rcases hbad with hnone | ⟨q, hq, hcomp⟩
  · exact Or.inl (hf.lookup_none_inf hnone)
  · obtain ⟨q', hq', hinfo'⟩ := hf.lookup_some_inf hq
    exact Or.inr ⟨q', hq', by rw [hinfo']; exact hcomp⟩

theorem GoodTrue.not_staticBad {m : PluginMap} (hg : GoodTrue m) {k : String}
    (ht : m.verdict k = some TriBool.True) : ¬StaticBad m k := by
  intro hsb
  obtain ⟨p, hp, d, hd, hbad⟩ := hsb
  unfold PluginMap.verdict at ht
  rw [hp] at ht
  simp at ht
  obtain ⟨q, hq, hc, -⟩ := hg k p hp ht d hd
  rcases hbad with hnone | ⟨q', hq', hcomp⟩
  · rw [hq] at hnone; exact Option.noConfusion hnone
  · rw [hq] at hq'
    injection hq' with hq'
    rw [← hq'] at hcomp
    rw [hc] at hcomp
    exact Bool.noConfusion hcomp

theorem allDepsOK_not_staticBad {m : PluginMap} {key : String} {p : Plugin}
    (hp : m.lookup key = some p) (hall : ∀ d ∈ p.info.dependencies, DepOK m d) :
    ¬StaticBad m key := by
  intro hsb
  obtain ⟨p', hp', d, hd, hbad⟩ := hsb
  rw [hp] at hp'
  injection hp' with hp'
  subst hp'
  obtain ⟨q, hq, hc, -⟩ := hall d hd
  rcases hbad with hnone | ⟨q', hq', hcomp⟩
  · rw [hq] at hnone; exact Option.noConfusion hnone
  · rw [hq] at hq'
    injection hq' with hq'
    subst hq'
    rw [hc] at hcomp
    exact Bool.noConfusion hcomp

theorem Blocked.lift_blk {m m' : PluginMap} (hf : InfoFrame m m') (hm : VMono m m')
    {k : String} (h : Blocked m k) : Blocked m' k := by
  induction h with
  | missing hp hd hnone =>
      obtain ⟨p', hp', hinfo⟩ := hf.lookup_some_inf hp
      exact Blocked.missing hp' (by rw [hinfo]; assumption) (hf.lookup_none_inf hnone)
  | incompat hp hd hq hcomp =>
      obtain ⟨p', hp', hinfo⟩ := hf.lookup_some_inf hp
      obtain ⟨q', hq', hinfo'⟩ := hf.lookup_some_inf hq
      exact Blocked.incompat hp' (by rw [hinfo]; assumption) hq' (by rw [hinfo']; assumption)
  | badDep hp hd hq hfalse =>
      rename_i key0 p0 d0 q0
      obtain ⟨p', hp', hinfo⟩ := hf.lookup_some_inf hp
      have hv : m'.verdict d0.name = some TriBool.False := by
        apply hm
        · simp [PluginMap.verdict, hq, hfalse]
        · simp
      unfold PluginMap.verdict at hv
      cases hq' : m'.lookup d0.name with
      | none => rw [hq'] at hv; exact Option.noConfusion hv
      | some q' =>
          rw [hq'] at hv
          simp at hv
          exact Blocked.badDep hp' (by rw [hinfo]; assumption) hq' hv
  | via hp hd _ ih =>
      obtain ⟨p', hp', hinfo⟩ := hf.lookup_some_inf hp
      exact Blocked.via hp' (by rw [hinfo]; assumption) ih

theorem Blocked.not_true {m : PluginMap} (hg : GoodTrue m) {k : String}
    (h : Blocked m k) : m.verdict k ≠ some TriBool.True := by
  induction h with
  | missing hp hd hnone =>
      intro ht
      unfold PluginMap.verdict at ht
      rw [hp] at ht
      simp at ht
      obtain ⟨q, hq, -, -⟩ := hg _ _ hp ht _ hd
      rw [hq] at hnone
      exact Option.noConfusion hnone
  | incompat hp hd hq hcomp =>
      intro ht
      unfold PluginMap.verdict at ht
      rw [hp] at ht
      simp at ht
      obtain ⟨q', hq', hc, -⟩ := hg _ _ hp ht _ hd
      rw [hq] at hq'
      injection hq' with hq'
      subst hq'
      rw [hc] at hcomp
      exact Bool.noConfusion hcomp
  | badDep hp hd hq hfalse =>
      intro ht
      unfold PluginMap.verdict at ht
      rw [hp] at ht
      simp at ht
      obtain ⟨q', hq', -, htr⟩ := hg _ _ hp ht _ hd
      rw [hq] at hq'
      injection hq' with hq'
      subst hq'
      rw [htr] at hfalse
      exact TriBool.noConfusion hfalse
  | via hp hd _ ih =>
      intro ht
      unfold PluginMap.verdict at ht
      rw [hp] at ht
      simp at ht
      rename_i d0 hblocked
      obtain ⟨q', hq', -, htr⟩ := hg _ _ hp ht _ hd
      apply ih
      simp [PluginMap.verdict, hq', htr]

theorem BOF.lift_bof {m m' : PluginMap} (hf : InfoFrame m m') (hm : VMono m m')
    {k : String} (h : BOF m k) : BOF m' k := by
  rcases h with hfalse | hb
  · exact Or.inl (hm k TriBool.False hfalse (by simp))
  · exact Or.inr (hb.lift_blk hf hm)

theorem TriBool.eqBool_true_iff (t : TriBool) : t.eqBool true = true ↔ t = TriBool.True := by
  cases t <;> simp [TriBool.eqBool]

theorem TriBool.determinate_cases {t : TriBool} (h : t.indeterminate = false) :
    t = TriBool.True ∨ t = TriBool.False := by
  cases t <;> simp [TriBool.indeterminate] at h ⊢

theorem ReturnCodeT.toBool_iff (rc : ReturnCodeT) :
    rc.toBool = true ↔ rc = ReturnCodeT.SUCCESS := by
  cases rc <;> simp [ReturnCodeT.toBool]

/-! ### The write sites of `checkDependencies` preserve soundness -/

theorem setFalse_sound {m : PluginMap} {key : String} (hg : GoodTrue m)
    (hsb : StaticBad m key) :
    GoodTrue (m.setVerdict key TriBool.False) ∧
      VMono m (m.setVerdict key TriBool.False) := by
  have hnt : m.verdict key ≠ some TriBool.True := by
    intro ht
    exact hg.not_staticBad ht hsb
  have hf : VFrame m (m.setVerdict key TriBool.False) := VFrame_setVerdict m key _
  have hmono : VMono m (m.setVerdict key TriBool.False) := by
    intro k v hv hne
    by_cases hk : key = k
    · subst hk
      cases v with
      | True => exact absurd hv hnt
      | False => rw [PluginMap.verdict_setVerdict_self, hv]; rfl
      | Indeterminate => exact absurd rfl hne
    · rw [PluginMap.verdict_setVerdict_ne m key k _ hk]
      exact hv
  refine ⟨?_, hmono⟩
  -- GoodTrue is preserved: the record written `False` is not `True`,
  -- and no `True` record can depend on a non-`True` record.
  intro k p hp hT d hd
  by_cases hk : key = k
  · subst hk
    rw [PluginMap.lookup_setVerdict_self] at hp
    cases hq : m.lookup key with
    | none => rw [hq] at hp; exact Option.noConfusion hp
    | some p0 =>
        rw [hq] at hp
        injection hp with hp
        rw [← hp] at hT
        exact absurd hT (by simp)
  · rw [PluginMap.lookup_setVerdict_ne m key k _ hk] at hp
    exact DepOK.lift_dep hf.toInfoFrame_vf hmono (hg k p hp hT d hd)

theorem fbrel_setFalse {m0 m : PluginMap} {key : String} (hfb : FBRel m0 m)
    (hsb : StaticBad m key) : FBRel m0 (m.setVerdict key TriBool.False) := by
  have hf : VFrame m (m.setVerdict key TriBool.False) := VFrame_setVerdict m key _
  intro k hkF
  by_cases hk : key = k
  · subst hk
    exact Or.inr (hsb.lift_sb hf.toInfoFrame_vf)
  · rw [PluginMap.verdict_setVerdict_ne m key k _ hk] at hkF
    rcases hfb k hkF with h0 | hsb'
    · exact Or.inl h0
    · exact Or.inr (hsb'.lift_sb hf.toInfoFrame_vf)

theorem setTrue_sound {m : PluginMap} {key : String} {p : Plugin} (hg : GoodTrue m)
    (hnf : m.verdict key ≠ some TriBool.False)
    (hp : m.lookup key = some p) (hall : ∀ d ∈ p.info.dependencies, DepOK m d) :
    GoodTrue (m.setVerdict key TriBool.True) ∧
      VMono m (m.setVerdict key TriBool.True) := by
  have hf : VFrame m (m.setVerdict key TriBool.True) := VFrame_setVerdict m key _
  have hmono : VMono m (m.setVerdict key TriBool.True) := by
    intro k v hv hne
    by_cases hk : key = k
    · subst hk
      cases v with
      | True => rw [PluginMap.verdict_setVerdict_self, hv]; rfl
      | False => exact absurd hv hnf
      | Indeterminate => exact absurd rfl hne
    · rw [PluginMap.verdict_setVerdict_ne m key k _ hk]
      exact hv
  refine ⟨?_, hmono⟩
  intro k p' hp' hT d hd
  by_cases hk : key = k
  · subst hk
    rw [PluginMap.lookup_setVerdict_self, hp] at hp'
    injection hp' with hp'
    have hd' : d ∈ p.info.dependencies := by rw [← hp'] at hd; exact hd
    exact DepOK.lift_dep hf.toInfoFrame_vf hmono (hall d hd')
  · rw [PluginMap.lookup_setVerdict_ne m key k _ hk] at hp'
    exact DepOK.lift_dep hf.toInfoFrame_vf hmono (hg k p' hp' hT d hd)

theorem fbrel_setTrue {m0 m : PluginMap} {key : String} (hfb : FBRel m0 m) :
    FBRel m0 (m.setVerdict key TriBool.True) := by
  have hf : VFrame m (m.setVerdict key TriBool.True) := VFrame_setVerdict m key _
  intro k hkF
  by_cases hk : key = k
  · subst hk
    rw [PluginMap.verdict_setVerdict_self] at hkF
    cases hq : m.verdict key with
    | none => rw [hq] at hkF; exact Option.noConfusion hkF
    | some v => rw [hq] at hkF; simp at hkF
  · rw [PluginMap.verdict_setVerdict_ne m key k _ hk] at hkF
    rcases hfb k hkF with h0 | hsb'
    · exact Or.inl h0
    · exact Or.inr (hsb'.lift_sb hf.toInfoFrame_vf)

/-! ### Frame and soundness of `checkDependencies` -/

theorem checkDepList_frame (check : PluginMap → String → Option (ReturnCodeT × PluginMap))
    (HC : ∀ m k rc m', check m k = some (rc, m') → VFrame m m') (key : String) :
    ∀ (ds : List Dependency) (m : PluginMap) (rc : ReturnCodeT) (m' : PluginMap),
      checkDepList check m key ds = some (rc, m') → VFrame m m' := by
  intro ds
  induction ds with
  | nil =>
      intro m rc m' h
      simp [checkDepList] at h
      rw [← h.2]
      exact VFrame_setVerdict m key _
  | cons d ds ih =>
      intro m rc m' h
      simp only [checkDepList] at h
      cases hdn : m.lookup d.name with
      | none =>
          rw [hdn] at h
          simp at h
          rw [← h.2]
          exact VFrame_setVerdict m key _
      | some dp =>
          rw [hdn] at h
          simp only at h
          by_cases hcomp : versionCompatible dp.info.version d.version
          · simp [hcomp] at h
            cases hch : check m d.name with
            | none => rw [hch] at h; exact Option.noConfusion h
            | some r =>
                obtain ⟨rc1, m1⟩ := r
                rw [hch] at h
                simp only at h
                have hf1 : VFrame m m1 := HC m d.name rc1 m1 hch
                by_cases hrc : rc1.toBool
                · simp [hrc] at h
                  exact hf1.trans_vf (ih m1 rc m' h)
                · simp [hrc] at h
                  rw [← h.2]
                  exact hf1
          · simp [hcomp] at h
            rw [← h.2]
            exact VFrame_setVerdict m key _

theorem checkDependencies_frame :
    ∀ (fuel : Nat) (m : PluginMap) (key : String) (rc : ReturnCodeT) (m' : PluginMap),
      checkDependencies fuel m key = some (rc, m') → VFrame m m' := by
  intro fuel
  induction fuel with
  | zero => intro m key rc m' h; simp [checkDependencies] at h
  | succ f ih =>
      intro m key rc m' h
      simp only [checkDependencies] at h
      cases hlk : m.lookup key with
      | none => rw [hlk] at h; exact Option.noConfusion h
      | some p =>
          rw [hlk] at h
          simp only at h
          by_cases hind : p.dependenciesExists.indeterminate
          · simp [hind] at h
            exact checkDepList_frame (checkDependencies f) (ih) key
              p.info.dependencies m rc m' h
          · simp [hind] at h
            rw [← h.2]
            exact VFrame.refl_vf m

theorem checkDepList_sound (check : PluginMap → String → Option (ReturnCodeT × PluginMap))
    (HCf : ∀ m k rc m', check m k = some (rc, m') → VFrame m m')
    (HC : ∀ m0 m k rc m', GoodTrue m → FBRel m0 m → VMono m0 m →
      check m k = some (rc, m') → SoundPost m0 m k rc m')
    (key : String) :
    ∀ (ds pre : List Dependency) (m0 m : PluginMap) (p : Plugin) (rc : ReturnCodeT)
      (m' : PluginMap),
      GoodTrue m → FBRel m0 m → VMono m0 m →
      m0.verdict key ≠ some TriBool.False →
      m.lookup key = some p → p.info.dependencies = pre ++ ds →
      (∀ d ∈ pre, DepOK m d) →
      checkDepList check m key ds = some (rc, m') →
      SoundPost m0 m key rc m' := by
  intro ds
  induction ds with
  | nil =>
      intro pre m0 m p rc m' hg hfb hm0 hkey0 hlk hdeps hpre h
      simp [checkDepList] at h
      obtain ⟨hrc, hm'⟩ := h
      subst hrc hm'
      have hall : ∀ d ∈ p.info.dependencies, DepOK m d := by
        intro d hd
        rw [hdeps] at hd
        simp at hd
        exact hpre d hd
      have hnf : m.verdict key ≠ some TriBool.False := by
        intro hF
        rcases hfb key hF with h0 | hsb
        · exact hkey0 h0
        · exact allDepsOK_not_staticBad hlk hall hsb
      obtain ⟨hg', hmono⟩ := setTrue_sound hg hnf hlk hall
      refine ⟨hg', fbrel_setTrue hfb, hmono, fun _ => ?_, fun hne => absurd rfl hne⟩
      rw [PluginMap.verdict_setVerdict_self]
      unfold PluginMap.verdict
      rw [hlk]
      rfl
  | cons d ds ih =>
      intro pre m0 m p rc m' hg hfb hm0 hkey0 hlk hdeps hpre h
      have hdmem : d ∈ p.info.dependencies := by
        rw [hdeps]; simp
      simp only [checkDepList] at h
      cases hdn : m.lookup d.name with
      | none =>
          rw [hdn] at h
          simp at h
          obtain ⟨hrc, hm'⟩ := h
          subst hrc hm'
          have hsb : StaticBad m key := ⟨p, hlk, d, hdmem, Or.inl hdn⟩
          obtain ⟨hg', hmono⟩ := setFalse_sound hg hsb
          refine ⟨hg', fbrel_setFalse hfb hsb, hmono, fun hs => ?_, fun _ => Or.inl ?_⟩
          · exact absurd hs (by simp)
          · rw [PluginMap.verdict_setVerdict_self]
            unfold PluginMap.verdict
            rw [hlk]
            rfl
      | some dp =>
          rw [hdn] at h
          simp only at h
          by_cases hcomp : versionCompatible dp.info.version d.version
          · simp [hcomp] at h
            cases hch : check m d.name with
            | none => rw [hch] at h; exact Option.noConfusion h
            | some r =>
                obtain ⟨rc1, m1⟩ := r
                rw [hch] at h
                simp only at h
                have hf1 : VFrame m m1 := HCf m d.name rc1 m1 hch
                obtain ⟨hg1, hfb1, hmono1, hsucc1, hfail1⟩ :=
                  HC m0 m d.name rc1 m1 hg hfb hm0 hch
                obtain ⟨p1, hp1, he1⟩ := hf1.lookup_some_vf hlk
                obtain ⟨-, -, -, hinfo1, -⟩ := Plugin.eraseVerdict_fields he1
                have hdmem1 : d ∈ p1.info.dependencies := by
                  rw [hinfo1]; exact hdmem
                by_cases hrc : rc1.toBool
                · -- the recursive check of the dependency succeeded
                  simp [hrc] at h
                  have hrc1 : rc1 = ReturnCodeT.SUCCESS := (ReturnCodeT.toBool_iff rc1).mp hrc
                  have hdv : m1.verdict d.name = some TriBool.True := hsucc1 hrc1
                  obtain ⟨q1, hq1, hqT⟩ : ∃ q1, m1.lookup d.name = some q1 ∧
                      q1.dependenciesExists = TriBool.True := by
                    unfold PluginMap.verdict at hdv
                    cases hq : m1.lookup d.name with
                    | none => rw [hq] at hdv; exact Option.noConfusion hdv
                    | some q1 =>
                        rw [hq] at hdv
                        simp at hdv
                        exact ⟨q1, rfl, hdv⟩
                  obtain ⟨q1', hq1', he1'⟩ := hf1.lookup_some_vf hdn
                  rw [hq1] at hq1'
                  injection hq1' with hq1''
                  obtain ⟨-, -, -, hinfoq, -⟩ := Plugin.eraseVerdict_fields he1'
                  have hinfoq2 : q1.info = dp.info := by
                    rw [hq1'']
                    exact hinfoq
                  have hpre1 : ∀ d' ∈ pre ++ [d], DepOK m1 d' := by
                    intro d' hd'
                    simp at hd'
                    rcases hd' with hd' | hd'
                    · exact DepOK.lift_dep hf1.toInfoFrame_vf hmono1 (hpre d' hd')
                    · subst hd'
                      exact ⟨q1, hq1, by rw [hinfoq2]; exact hcomp, hqT⟩
                  have hdeps1 : p1.info.dependencies = (pre ++ [d]) ++ ds := by
                    rw [hinfo1, hdeps]
                    simp
                  obtain ⟨hg', hfb', hmono', hs', hfl'⟩ :=
                    ih (pre ++ [d]) m0 m1 p1 rc m' hg1 hfb1 (hm0.trans_vm hmono1)
                      hkey0 hp1 hdeps1 hpre1 h
                  exact ⟨hg', hfb', hmono1.trans_vm hmono', hs', hfl'⟩
                · -- the recursive check failed; the failure is propagated
                  simp [hrc] at h
                  obtain ⟨hrceq, hm'⟩ := h
                  subst hrceq hm'
                  have hrc1 : rc1 ≠ ReturnCodeT.SUCCESS := by
                    intro hs
                    rw [hs] at hrc
                    exact hrc rfl
                  have hbof : BOF m1 d.name := hfail1 hrc1
                  have hblocked : Blocked m1 key := by
                    rcases hbof with hF | hb
                    · obtain ⟨q1, hq1, hqF⟩ : ∃ q1, m1.lookup d.name = some q1 ∧
                          q1.dependenciesExists = TriBool.False := by
                        unfold PluginMap.verdict at hF
                        cases hq : m1.lookup d.name with
                        | none => rw [hq] at hF; exact Option.noConfusion hF
                        | some q1 =>
                            rw [hq] at hF
                            simp at hF
                            exact ⟨q1, rfl, hF⟩
                      exact Blocked.badDep hp1 hdmem1 hq1 hqF
                    · exact Blocked.via hp1 hdmem1 hb
                  exact ⟨hg1, hfb1, hmono1, fun hs => absurd hs hrc1,
                    fun _ => Or.inr hblocked⟩
          · simp [hcomp] at h
            obtain ⟨hrc, hm'⟩ := h
            subst hrc hm'
            have hsb : StaticBad m key :=
              ⟨p, hlk, d, hdmem, Or.inr ⟨dp, hdn, by simpa using hcomp⟩⟩
            obtain ⟨hg', hmono⟩ := setFalse_sound hg hsb
            refine ⟨hg', fbrel_setFalse hfb hsb, hmono, fun hs => ?_, fun _ => Or.inl ?_⟩
            · exact absurd hs (by simp)
            · rw [PluginMap.verdict_setVerdict_self]
              unfold PluginMap.verdict
              rw [hlk]
              rfl

theorem checkDependencies_sound :
    ∀ (fuel : Nat) (m0 m : PluginMap) (key : String) (rc : ReturnCodeT) (m' : PluginMap),
      GoodTrue m → FBRel m0 m → VMono m0 m →
      checkDependencies fuel m key = some (rc, m') →
      SoundPost m0 m key rc m' := by
  intro fuel
  induction fuel with
  | zero => intro m0 m key rc m' _ _ _ h; simp [checkDependencies] at h
  | succ f ih =>
      intro m0 m key rc m' hg hfb hm0 h
      simp only [checkDependencies] at h
      cases hlk : m.lookup key with
      | none => rw [hlk] at h; exact Option.noConfusion h
      | some p =>
          rw [hlk] at h
          simp only at h
          by_cases hind : p.dependenciesExists.indeterminate
          · simp [hind] at h
            have hkey0 : m0.verdict key ≠ some TriBool.False := by
              intro h0
              have := hm0 key TriBool.False h0 (by simp)
              unfold PluginMap.verdict at this
              rw [hlk] at this
              simp at this
              rw [this] at hind
              simp [TriBool.indeterminate] at hind
            exact checkDepList_sound (checkDependencies f)
              (fun m k rc m' => checkDependencies_frame f m k rc m')
              (fun a b c d e hg' hfb' hm' hd => ih a b c d e hg' hfb' hm' hd) key
              p.info.dependencies [] m0 m p rc m' hg hfb hm0 hkey0 hlk (by simp)
              (by intro d hd; simp at hd) h
          · simp [hind] at h
            obtain ⟨hrc, hm'⟩ := h
            subst hm'
            rcases TriBool.determinate_cases (by simpa using hind) with hT | hF
            · have heqb : p.dependenciesExists.eqBool true = true := by
                rw [hT]; rfl
              rw [← hrc]
              refine ⟨hg, hfb, VMono.refl_vm m, fun _ => ?_, fun hne => ?_⟩
              · simp [PluginMap.verdict, hlk, hT]
              · exact absurd (by simp [heqb]) hne
            · have hne : p.dependenciesExists.eqBool true = false := by
                rw [hF]; rfl
              have hvF : m.verdict key = some TriBool.False := by
                simp [PluginMap.verdict, hlk, hF]
              refine ⟨hg, hfb, VMono.refl_vm m, fun hs => ?_, fun _ => Or.inl hvF⟩
              rw [← hrc] at hs
              simp [hne] at hs
              by_cases hc : m.containsKey p.info.name <;> simp [hc] at hs

/-- A registry consisting of one plug-in `A` that declares itself as a
dependency with a compatible version requirement. -/
def selfCycleMap : PluginMap :=
  [("A", { path := "/plugins/a.so",
           info := { name := "A", version := "1.0.0",
                     dependencies := [⟨"A", "1.0.0"⟩] } })]

example : checkDependencies 5 selfCycleMap "A" = none := by decide

/-- One unfolding step of the resolver on the self-cycle registry: the
memo flag is still `Indeterminate` when the recursive call on `A` is
reached, so the call at fuel `f + 1` reduces to the call at fuel `f`
composed with the rest of the dependency loop. -/
theorem selfCycle_step (f : Nat) :
    checkDependencies (f + 1) selfCycleMap "A" =
      (match checkDependencies f selfCycleMap "A" with
       | none => none
       | some (rc, m') =>
           if ¬rc.toBool then some (rc, m')
           else checkDepList (checkDependencies f) m' "A" []) := rfl

/-- The resolver never completes on the self-cycle registry: every fuel
bound is exhausted (the C++ recursion `checkDependencies(A) →
checkDependencies(A)` never terminates, since the verdict is written
only after the dependency loop). -/
theorem selfCycle_checkDependencies_diverges :
    ∀ fuel, checkDependencies fuel selfCycleMap "A" = none := by
  intro fuel
  induction fuel with
  | zero => rfl
  | succ f ih =>
      rw [selfCycle_step, ih]

/-! ### Claim C5: repeated check of a memoized `No` record -/

/-- The record `X`, declaring a dependency on the absent `Y`. -/
def pluginX : Plugin :=
  { path := "/plugins/x.so",
    info := { name := "X", version := "1.0.0", dependencies := [⟨"Y", "1.0.0"⟩] } }

/-- `X` after its failed check (memoized `False` verdict). -/
def pluginXFalse : Plugin :=
  { pluginX with dependenciesExists := TriBool.False }

/-- A registry holding only `X`, before any check. -/
def missingDepMap : PluginMap := [("X", pluginX)]

/-- A registry holding only `X`, after its failed check. -/
def missingDepFalse : PluginMap := [("X", pluginXFalse)]

/-- Claim C5 (counterexample): the first check of `X` fails with
`DependencyNotFound` (its dependency `Y` has no record) and memoizes the
`No` verdict; the repeated check returns `DependencyBadVersion`, not the
code of the original failure — the memo branch keys its answer on
whether a record exists under the plug-in's own metadata name, which is
true for every registered plug-in. -/
theorem repeated_check_not_original_code :
    checkDependencies 2 missingDepMap "X"
        = some (ReturnCodeT.LOAD_DEPENDENCY_NOT_FOUND, missingDepFalse) ∧
      checkDependencies 2 missingDepFalse "X"
        = some (ReturnCodeT.LOAD_DEPENDENCY_BAD_VERSION, missingDepFalse) ∧
      ReturnCodeT.LOAD_DEPENDENCY_BAD_VERSION ≠ ReturnCodeT.LOAD_DEPENDENCY_NOT_FOUND := by
  refine ⟨by decide, by decide, by decide⟩

/-- Claim C5 (amended): a repeated check of a record whose memoized
verdict is `No` ignores the kind of the original failure: it returns
`DependencyNotFound` when no record is registered under the record's own
metadata name, and `DependencyBadVersion` otherwise — in particular,
always `DependencyBadVersion` for a record that is registered under its
metadata name, even when the original failure was a missing
dependency. -/
theorem checkDependencies_memoized_false (fuel : Nat) (m : PluginMap) (key : String)
    (p : Plugin) (hlk : m.lookup key = some p)
    (hF : p.dependenciesExists = TriBool.False) :
    checkDependencies (fuel + 1) m key =
      some
        ((if m.containsKey p.info.name then ReturnCodeT.LOAD_DEPENDENCY_BAD_VERSION
          else ReturnCodeT.LOAD_DEPENDENCY_NOT_FOUND), m) := by
  simp only [checkDependencies, hlk]
  rw [hF]
  by_cases hc : m.containsKey p.info.name <;>
    simp [hc, TriBool.indeterminate, TriBool.eqBool]

/-- Witness for `checkDependencies_memoized_false` at the concrete
registry of the counterexample. -/
theorem checkDependencies_memoized_false_witness :
    checkDependencies 1 missingDepFalse "X"
      = some (ReturnCodeT.LOAD_DEPENDENCY_BAD_VERSION, missingDepFalse) := by
  have h := checkDependencies_memoized_false 0 missingDepFalse "X" pluginXFalse
    (by decide) (by decide)
  rw [show missingDepFalse.containsKey pluginXFalse.info.name = true from by decide] at h
  simpa using h

/-! ### Claim C7: `hasSymbol` and the persistent error state -/

theorem dlsymErrorText_not_empty (s : String) : (dlsymErrorText s).isEmpty = false := by
  rw [Bool.eq_false_iff]
  intro h
  have h2 : dlsymErrorText s = "" := (String.isEmpty_iff _).mp h
  have h3 : (dlsymErrorText s).data = "".data := by rw [h2]
  simp [dlsymErrorText] at h3

/-- Claim C7: for every library state and symbol name, `hasSymbol`
returns `true` iff the symbol resolves in the loaded library, and the
persistent error text observable through `errorString()` after the call
equals the error text before the call. -/
theorem hasSymbol_resolves_and_preserves_error (l : SharedLibrary) (name : String) :
    ((l.hasSymbol name).snd = true ↔ l.resolves name) ∧
      ((l.hasSymbol name).fst).errorString = l.errorString := by
  unfold SharedLibrary.hasSymbol SharedLibrary.getImpl SharedLibrary.resolves
    SharedLibrary.errorString
  cases hh : l.handle with
  | none =>
      simp [hh, dlsymErrorText_not_empty]
  | some img =>
      by_cases hs : name ∈ img.symbols
      · simp [hh, hs, String.isEmpty]
      · simp [hh, hs, dlsymErrorText_not_empty]

/-! ### Manager state and read-only queries -/

/-- `jp_private::PlugMgrPrivate` (`private/pluginmanagerprivate.h`): the
registry, the last load order, the discovered locations, and the
registered main plug-in name.  The log stream and `useLog` flag are
omitted (they only affect text output), as is the never-read
`allPluginsUnloaded` flag. -/
structure MgrState where
  pluginsMap : PluginMap := []
  loadOrderList : List String := []
  locations : List String := []
  mainPluginName : String := ""
deriving DecidableEq

/-- `PluginManager::pluginsCount()`. -/
def pluginsCount (st : MgrState) : Nat :=
  st.pluginsMap.length

/-- `PluginManager::hasPlugin(name)`. -/
def hasPlugin (st : MgrState) (name : String) : Bool :=
  st.pluginsMap.containsKey name

/-- `PluginManager::isPluginLoaded(name)`. -/
def isPluginLoaded (st : MgrState) (name : String) : Bool :=
  match st.pluginsMap.lookup name with
  | none => false
  | some p => p.lib.isLoaded && p.iplugin

/-- `PluginManager::pluginInfo(name)`: the metadata snapshot, or `none`
for the default-constructed `PluginInfo` (null `name`) returned when the
plug-in is unknown. -/
def pluginInfo (st : MgrState) (name : String) : Option PluginInfoStd :=
  st.pluginsMap.lookup name |>.map Plugin.info

/-! ### The request router -/

/-- `IPlugin::ManagerRequest` (`iplugin.h`): the closed request-code set
of the manager, with the enum's numeric values. -/
def IPlugin.GET_APPDIRECTORY : Nat := 0

/-- `GET_PLUGINAPI = 1`. -/
def IPlugin.GET_PLUGINAPI : Nat := 1

/-- `GET_PLUGINSCOUNT = 2`. -/
def IPlugin.GET_PLUGINSCOUNT : Nat := 2

/-- `GET_PLUGININFO = 10`. -/
def IPlugin.GET_PLUGININFO : Nat := 10

/-- `GET_PLUGINVERSION = 11`. -/
def IPlugin.GET_PLUGINVERSION : Nat := 11

/-- `CHECK_PLUGIN = 100`. -/
def IPlugin.CHECK_PLUGIN : Nat := 100

/-- `CHECK_PLUGINLOADED = 101`. -/
def IPlugin.CHECK_PLUGINLOADED : Nat := 101

/-- `IPlugin::RequestReturnCode::SUCCESS = 0`. -/
def IPlugin.SUCCESS : Nat := 0

/-- `COMMON_ERROR = 1`. -/
def IPlugin.COMMON_ERROR : Nat := 1

/-- `UNKNOWN_REQUEST = 2`. -/
def IPlugin.UNKNOWN_REQUEST : Nat := 2

/-- `DATASIZE_NULL = 3`. -/
def IPlugin.DATASIZE_NULL : Nat := 3

/-- `TRUE = SUCCESS`. -/
def IPlugin.TRUE : Nat := IPlugin.SUCCESS

/-- `FALSE = COMMON_ERROR`. -/
def IPlugin.FALSE : Nat := IPlugin.COMMON_ERROR

/-- `NOT_FOUND = 4`. -/
def IPlugin.NOT_FOUND : Nat := 4

/-- The byte size of the C++ `size_t` integer on the 64-bit reference
platform (at least 4 on every supported platform). -/
def sizeof_size_t : Nat := 8

/-- The bytes the router hands back through the `void** data` slot:
a heap-allocated C string, a heap-allocated integer, or a heap-allocated
metadata snapshot. -/
inductive Payload where
  | str (s : String)
  | count (n : Nat)
  | infoSnapshot (i : PluginInfoStd)
deriving DecidableEq

/-- `PlugMgrPrivate::handleRequestImpl` (`src/unnamed/part_009` lines
358–430).  `appDir` stands for `fsutil::appDir()` and `pluginApi` for the
`JP_PLUGIN_API` constant (both external).  `dataIn` is the string behind
the `*data` slot on entry (`none` for a null payload); `dsPresent` is
whether the `dataSize` slot is non-null.  The result carries the
`uint16_t` return code, the payload written through `*data`, the value
written through `*dataSize`, and the (unchanged) manager state; `none`
models the undefined behaviour of constructing a `std::string` from the
null payload in the `CHECK_*` branches. -/
def handleRequestImpl (st : MgrState) (appDir pluginApi : String) (sender : String)
    (code : Nat) (dataIn : Option String) (dsPresent : Bool) :
    Option (Nat × Option Payload × Option Nat × MgrState) :=
  if ¬dsPresent then some (IPlugin.DATASIZE_NULL, none, none, st)
  else if code = IPlugin.GET_APPDIRECTORY then
    some (IPlugin.SUCCESS, some (Payload.str appDir), some appDir.length, st)
  else if code = IPlugin.GET_PLUGINAPI then
    some (IPlugin.SUCCESS, some (Payload.str pluginApi), some pluginApi.length, st)
  else if code = IPlugin.GET_PLUGINSCOUNT then
    some (IPlugin.SUCCESS, some (Payload.count (pluginsCount st)), some 1, st)
  else if code = IPlugin.GET_PLUGININFO then
    match pluginInfo st (dataIn.getD sender) with
    | none => some (IPlugin.NOT_FOUND, none, none, st)
    | some info => some (IPlugin.SUCCESS, some (Payload.infoSnapshot info), some 1, st)
  else if code = IPlugin.GET_PLUGINVERSION then
    match pluginInfo st (dataIn.getD sender) with
    | none => some (IPlugin.NOT_FOUND, none, none, st)
    | some info =>
        some (IPlugin.SUCCESS, some (Payload.str info.version), some info.version.length, st)
  else if code = IPlugin.CHECK_PLUGIN then
    match dataIn with
    | none => none
    | some name =>
        some ((if hasPlugin st name then IPlugin.TRUE else IPlugin.FALSE), none, none, st)
  else if code = IPlugin.CHECK_PLUGINLOADED then
    match dataIn with
    | none => none
    | some name =>
        some ((if isPluginLoaded st name then IPlugin.TRUE else IPlugin.FALSE), none, none, st)
  else some (IPlugin.UNKNOWN_REQUEST, none, none, st)

/-- Claim C8 (amended): a `GET_PLUGINSCOUNT` request with a non-null
data-size slot returns `Success` and writes the number of registered
plug-ins into the data slot, but writes the fixed token `1` into the
data-size slot — not the byte size of the integer payload. -/
theorem pluginscount_writes_count_and_token (st : MgrState) (appDir pluginApi sender : String)
    (dataIn : Option String) :
    handleRequestImpl st appDir pluginApi sender IPlugin.GET_PLUGINSCOUNT dataIn true
      = some (IPlugin.SUCCESS, some (Payload.count (pluginsCount st)), some 1, st) := by
  rfl

/-- Claim C8 (counterexample): at a concrete one-plug-in registry the
data-size slot receives `1`, which is not `sizeof(size_t)` — the claimed
"byte size of that integer payload". -/
theorem pluginscount_datasize_not_sizeof :
    handleRequestImpl { pluginsMap := [("A", {})] } "/app" "1.0.0" "A"
        IPlugin.GET_PLUGINSCOUNT none true
      = some (IPlugin.SUCCESS, some (Payload.count 1), some 1,
          { pluginsMap := [("A", {})] }) ∧
    (1 : Nat) ≠ sizeof_size_t := by
  exact ⟨rfl, by decide⟩

/-- Claim C10: every manager-directed request whose data-size slot is
null returns `DataSizeNull` with no payload write, no size write, and an
unchanged manager state — for every code of the closed request set,
including `CHECK_PLUGIN` and `CHECK_PLUGINLOADED`. -/
theorem null_datasize_returns_datasize_null (st : MgrState)
    (appDir pluginApi sender : String) (code : Nat) (dataIn : Option String)
    (hcode : code ∈ [IPlugin.GET_APPDIRECTORY, IPlugin.GET_PLUGINAPI,
      IPlugin.GET_PLUGINSCOUNT, IPlugin.GET_PLUGININFO, IPlugin.GET_PLUGINVERSION,
      IPlugin.CHECK_PLUGIN, IPlugin.CHECK_PLUGINLOADED]) :
    handleRequestImpl st appDir pluginApi sender code dataIn false
      = some (IPlugin.DATASIZE_NULL, none, none, st) := by
  rfl

/-- Witness for `null_datasize_returns_datasize_null`: a `CHECK_PLUGIN`
request with a null size slot at a concrete state. -/
theorem null_datasize_returns_datasize_null_witness :
    handleRequestImpl { pluginsMap := [("A", {})] } "/app" "1.0.0" "A"
        IPlugin.CHECK_PLUGIN (some "A") false
      = some (IPlugin.DATASIZE_NULL, none, none, { pluginsMap := [("A", {})] }) :=
  null_datasize_returns_datasize_null { pluginsMap := [("A", {})] } "/app" "1.0.0" "A"
    IPlugin.CHECK_PLUGIN (some "A") (by decide)

/-! ### Loading and unloading shared objects -/

/-- The filesystem/dynamic-linker world: which paths hold openable
images.  Modelled from the spec: `dlopen` and the filesystem walker are
external collaborators. -/
abbrev World := List (String × LibImage)

/-- Lookup of an openable image at a path (the semantics of `dlopen`). -/
def worldFind : World → String → Option LibImage
  | [], _ => none
  | (path, img) :: rest, q => if path = q then some img else worldFind rest q

/-- Modelled from the spec: the `dlerror()` text after a failed
`dlopen`. -/
def dlopenErrorText (path : String) : String :=
  "cannot open shared object file: " ++ path

/-- Modelled from the spec: the `dlerror()` text after a failed
`dlclose`. -/
def dlcloseErrorText : String :=
  "cannot close shared object"

/-- `SharedLibrary::loadImpl(path)` (Linux branch): clears `_lastError`,
opens the object; on failure records the error and holds no handle. -/
def SharedLibrary.loadImpl (w : World) (l : SharedLibrary) (path : String) :
    SharedLibrary × Bool :=
  match worldFind w path with
  | some img => ({ handle := some img, lastError := "" }, true)
  | none => ({ handle := none, lastError := dlopenErrorText path }, false)

/-- `SharedLibrary::unloadImpl()`: clears `_lastError`, closes the
handle; `dlclose`'s success is the image's `closeSucceeds` oracle bit.
On failure the handle is kept and the error recorded. -/
def SharedLibrary.unloadImpl (l : SharedLibrary) : SharedLibrary × Bool :=
  match l.handle with
  | some img =>
      if img.closeSucceeds then ({ handle := none, lastError := "" }, true)
      else ({ l with lastError := dlcloseErrorText }, false)
  | none => ({ l with lastError := "" }, false)

/-- `SharedLibrary::unload()`. -/
def SharedLibrary.unload (l : SharedLibrary) : SharedLibrary × Bool :=
  if l.isLoaded then l.unloadImpl else (l, false)

/-- `SharedLibrary::load(path)`: releases a held handle first, then
opens the new one. -/
def SharedLibrary.load (w : World) (l : SharedLibrary) (path : String) :
    SharedLibrary × Bool :=
  if l.isLoaded then
    match l.unload with
    | (l1, false) => (l1, false)
    | (l1, true) => l1.loadImpl w path
  else l.loadImpl w path

/-! ### Phase 1 — `PluginManager::searchForPlugins` -/

/-- The per-candidate body of the search loop
(`pluginmanager.cpp` lines 169–218): open the object, require the three
exported symbols, reject duplicate names and undecodable metadata,
otherwise produce the record to install. -/
def processCandidate (w : World) (path : String) (m : PluginMap) :
    Option (String × Plugin) :=
  let lib0 : SharedLibrary := {}
  let lib1 := (lib0.load w path).fst
  let r1 := lib1.hasSymbol "jp_name"
  let r2 := r1.fst.hasSymbol "jp_metadata"
  let r3 := r2.fst.hasSymbol "jp_createPlugin"
  if lib1.isLoaded && r1.snd && r2.snd && r3.snd then
    match r3.fst.handle with
    | none => none
    | some img =>
        let name := img.jpName
        if m.containsKey name then none
        else
          let info := img.decodedMeta
          if info.name.isEmpty then none
          else some (name, { lib := r3.fst, path := path, info := info })
  else none

/-- The search loop over the candidate list: threads the registry and
the `atLeastOneFound` flag. -/
def searchLoop (w : World) : List String → MgrState → Bool → MgrState × Bool
  | [], st, found => (st, found)
  | path :: rest, st, found =>
      match processCandidate w path st.pluginsMap with
      | some (name, plugin) =>
          searchLoop w rest
            { st with pluginsMap := st.pluginsMap ++ [(name, plugin)] } true
      | none => searchLoop w rest st found

/-- `PluginManager::searchForPlugins(pluginDir, recursive, callback)`
(`pluginmanager.cpp` lines 152–228).  `walkOk` is the success of the
external `fsutil::listLibrariesInDir` walk and `libList` the candidate
paths it collected; the reporter callback is ignored (it does not
influence state or result). -/
def searchForPlugins (walkOk : Bool) (libList : List String) (w : World)
    (st : MgrState) (pluginDir : String) : ReturnCodeT × MgrState :=
  if !walkOk && libList.isEmpty then (ReturnCodeT.SEARCH_LISTFILES_ERROR, st)
  else
    let r := searchLoop w libList st false
    if r.snd then
      let st' :=
        if r.fst.locations.contains pluginDir then r.fst
        else { r.fst with locations := r.fst.locations ++ [pluginDir] }
      (ReturnCodeT.SUCCESS, st')
    else (ReturnCodeT.SEARCH_NOTHING_FOUND, r.fst)

/-! ### Phase 3 — `PlugMgrPrivate::unloadPluginsInOrder` -/

/-- `PlugMgrPrivate::unloadPlugin(plugin)`: calls `aboutToBeUnloaded` on
a live instance, drops the instance, unloads the library; returns
whether the OS actually freed the handle. -/
def unloadPlugin (p : Plugin) : Bool :=
  !(({ p with iplugin := false } : Plugin).lib.unload).fst.isLoaded

/-- The reverse walk over the load order: unload and erase each named
record.  `none` models the null-`shared_ptr` dereference the C++
performs when a name of the load order is no longer in the map
(`pluginsMap[*it]` default-inserts a null pointer). -/
def unloadOrderLoop : List String → PluginMap → Bool → Option (PluginMap × Bool)
  | [], m, all => some (m, all)
  | name :: rest, m, all =>
      match m.lookup name with
      | none => none
      | some p => unloadOrderLoop rest (m.eraseKey name) (all && unloadPlugin p)

/-- The drain of the records never named in the load order. -/
def drainLoop : PluginMap → Bool → Bool
  | [], all => all
  | (_, p) :: rest, all => drainLoop rest (all && unloadPlugin p)

/-- `PlugMgrPrivate::unloadPluginsInOrder` (`src/unnamed/part_009` lines
305–329): reverse walk over the load order, drain of the remaining
records, clearing of the locations list.  The load-order list itself is
not cleared. -/
def unloadPluginsInOrder (st : MgrState) : Option (Bool × MgrState) :=
  match unloadOrderLoop st.loadOrderList.reverse st.pluginsMap true with
  | none => none
  | some (m1, all1) =>
      some (drainLoop m1 all1, { st with pluginsMap := [], locations := [] })

/-- `PluginManager::unloadPlugins(callback)` (`pluginmanager.cpp` lines
327–340). -/
def unloadPlugins (st : MgrState) : Option (ReturnCodeT × MgrState) :=
  match unloadPluginsInOrder st with
  | none => none
  | some (all, st') =>
      some ((if all then ReturnCodeT.SUCCESS else ReturnCodeT.UNLOAD_NOT_ALL), st')

/-! ### Claim C6: the outcome of a search call -/

theorem searchLoop_spec (w : World) :
    ∀ (libs : List String) (st : MgrState) (found : Bool),
      (searchLoop w libs st found).fst.pluginsMap.length ≥ st.pluginsMap.length ∧
      ((searchLoop w libs st found).snd = true ↔
        (found = true ∨
          (searchLoop w libs st found).fst.pluginsMap.length > st.pluginsMap.length)) := by
  intro libs
  induction libs with
  | nil =>
      intro st found
      simp [searchLoop]
  | cons path rest ih =>
      intro st found
      cases hpc : processCandidate w path st.pluginsMap with
      | none =>
          simp only [searchLoop, hpc]
          exact ih st found
      | some r =>
          obtain ⟨name, plugin⟩ := r
          simp only [searchLoop, hpc]
          obtain ⟨hlen, hiff⟩ :=
            ih { st with pluginsMap := st.pluginsMap ++ [(name, plugin)] } true
          simp only [List.length_append, List.length_cons, List.length_nil] at hlen
          constructor
          · omega
          · rw [hiff]
            constructor
            · intro _
              right
              omega
            · intro _
              left
              rfl

/-- Claim C6: a search call returns `Success` iff at least one plugin
record was installed during that call (the registry grew); it returns
`ListFilesError` iff the filesystem walk failed and no candidate files
were collected; in every other case it returns `NothingFound`. -/
theorem searchForPlugins_outcome (walkOk : Bool) (libList : List String) (w : World)
    (st : MgrState) (pluginDir : String) :
    ((searchForPlugins walkOk libList w st pluginDir).fst = ReturnCodeT.SUCCESS ↔
        (searchForPlugins walkOk libList w st pluginDir).snd.pluginsMap.length
          > st.pluginsMap.length) ∧
    ((searchForPlugins walkOk libList w st pluginDir).fst
          = ReturnCodeT.SEARCH_LISTFILES_ERROR ↔
        (walkOk = false ∧ libList = [])) ∧
    ((searchForPlugins walkOk libList w st pluginDir).fst
          = ReturnCodeT.SEARCH_NOTHING_FOUND ↔
        ((searchForPlugins walkOk libList w st pluginDir).snd.pluginsMap.length
            = st.pluginsMap.length ∧ (walkOk = true ∨ libList ≠ []))) := by
  obtain ⟨hlen, hiff⟩ := searchLoop_spec w libList st false
  simp only [Bool.false_eq_true, false_or] at hiff
  unfold searchForPlugins
  by_cases hw : (!walkOk && libList.isEmpty) = true
  · rw [if_pos hw]
    simp only [Bool.and_eq_true, Bool.not_eq_true'] at hw
    obtain ⟨hw1, hw2⟩ := hw
    have hw2' : libList = [] := List.isEmpty_iff.mp hw2
    subst hw1
    refine ⟨by simp, Iff.intro (fun _ => ⟨rfl, hw2'⟩) (fun _ => rfl), ?_⟩
    constructor
    · intro hcontra
      exact absurd hcontra (by simp)
    · intro hc
      rcases hc.2 with h1 | h1
      · exact Bool.noConfusion h1
      · exact absurd hw2' h1
  · rw [if_neg hw]
    have hw' : walkOk = true ∨ libList ≠ [] := by
      by_cases h1 : walkOk = true
      · exact Or.inl h1
      · right
        intro hnil
        apply hw
        have h2 : walkOk = false := by
          revert h1
          cases walkOk <;> simp
        subst hnil h2
        rfl
    have hnotlf : walkOk = false → ¬libList = [] := by
      intro h1 h2
      rcases hw' with h3 | h3
      · rw [h1] at h3
        exact Bool.noConfusion h3
      · exact h3 h2
    cases hfound : (searchLoop w libList st false).snd with
    | true =>
        have hgrow := hiff.mp hfound
        simp only [hfound, if_true]
        have hmap :
            (if (searchLoop w libList st false).fst.locations.contains pluginDir then
                (searchLoop w libList st false).fst
              else { (searchLoop w libList st false).fst with
                  locations := (searchLoop w libList st false).fst.locations
                    ++ [pluginDir] }).pluginsMap
              = (searchLoop w libList st false).fst.pluginsMap := by
          by_cases hc : pluginDir ∈ (searchLoop w libList st false).fst.locations <;>
            simp [hc]
        refine ⟨?_, by simp; exact hnotlf, ?_⟩
        · simp only [hmap]
          simp [hgrow]
        · simp only [hmap]
          constructor
          · intro hcontra
            exact absurd hcontra (by simp)
          · intro hc
            omega
    | false =>
        have hnot : ¬(searchLoop w libList st false).fst.pluginsMap.length
            > st.pluginsMap.length := by
          intro hgt
          rw [← hiff] at hgt
          rw [hfound] at hgt
          exact Bool.noConfusion hgt
        simp only [hfound, Bool.false_eq_true, if_false]
        refine ⟨?_, by simp; exact hnotlf, ?_⟩
        · constructor
          · intro hcontra
            exact absurd hcontra (by simp)
          · intro hc
            exact absurd hc hnot
        · simp only [true_iff, iff_true]
          exact ⟨by omega, hw'⟩

/-! ### Claim C9: the registry and locations are drained by unload -/

/-- Claim C9: whenever `unloadPlugins` returns — with `Success` or with
`UnloadNotAll` — the registry and the locations set are empty: the
records named in the load order are removed first, the remaining records
are drained, and the locations list is cleared. -/
theorem unloadPlugins_drains (st : MgrState) (rc : ReturnCodeT) (st' : MgrState)
    (h : unloadPlugins st = some (rc, st')) :
    st'.pluginsMap = [] ∧ st'.locations = [] ∧
      (rc = ReturnCodeT.SUCCESS ∨ rc = ReturnCodeT.UNLOAD_NOT_ALL) := by
  unfold unloadPlugins unloadPluginsInOrder at h
  cases ho : unloadOrderLoop st.loadOrderList.reverse st.pluginsMap true with
  | none => rw [ho] at h; exact Option.noConfusion h
  | some r =>
      obtain ⟨m1, all1⟩ := r
      rw [ho] at h
      simp only at h
      injection h with h
      injection h with h1 h2
      rw [← h2]
      refine ⟨rfl, rfl, ?_⟩
      by_cases hall : drainLoop m1 all1 <;> simp [hall] at h1 <;> simp [← h1]

/-- Witness for `unloadPlugins_drains`: a concrete loaded state whose
unload returns `Success` and drains registry and locations. -/
theorem unloadPlugins_drains_witness :
    ({ loadOrderList := ["A"] } : MgrState).pluginsMap = [] ∧
      ({ loadOrderList := ["A"] } : MgrState).locations = [] ∧
      (ReturnCodeT.SUCCESS = ReturnCodeT.SUCCESS ∨
        ReturnCodeT.SUCCESS = ReturnCodeT.UNLOAD_NOT_ALL) :=
  unloadPlugins_drains
    { pluginsMap := [("A",
        { iplugin := true,
          lib := { handle := some { symbols := ["jp_name", "jp_metadata", "jp_createPlugin"],
                                    jpName := "A",
                                    decodedMeta := { name := "A", version := "1.0.0" } } },
          path := "/plugins/a.so",
          info := { name := "A", version := "1.0.0" },
          dependenciesExists := TriBool.True,
          graphId := 0 })],
      loadOrderList := ["A"], locations := ["/plugins"] }
    ReturnCodeT.SUCCESS { loadOrderList := ["A"] } (by decide)

/-! ### `jp_private::Graph` (`private/graph.h`) and its topological sort -/

/-- `Graph::Flag`. -/
inductive Graph.Flag where
  | UNMARKED
  | MARK_TEMP
  | MARK_PERMANENT
deriving DecidableEq

/-- `Graph::Node`: the node's name, the ids of its predecessor
("parent") nodes, and the DFS mark. -/
structure Graph.Node where
  name : String
  parentNodes : List Int := []
  flag : Graph.Flag := Graph.Flag.UNMARKED
deriving DecidableEq

/-- The state threaded through the sort: the node vector and the output
list being built. -/
structure SortState where
  nodes : List Graph.Node
  out : List String
deriving DecidableEq

/-- Overwrites the flag of the node at an index. -/
def setFlagList : List Graph.Node → Nat → Graph.Flag → List Graph.Node
  | [], _, _ => []
  | nd :: rest, 0, fl => { nd with flag := fl } :: rest
  | nd :: rest, i + 1, fl => nd :: setFlagList rest i fl

/-- The parent loop of `Graph::visitNode`: visits every parent id in
order (through `visit`, the node visit at one fuel less), aborting on
the first cycle; a negative parent id indexes outside the node vector
(`none`, like any out-of-range id). -/
def visitParents (visit : SortState → Nat → Option (SortState × Bool)) :
    SortState → List Int → Option (SortState × Bool)
  | st, [] => some (st, true)
  | st, p :: ps =>
      if p < 0 then none
      else
        match visit st p.toNat with
        | none => none
        | some (st1, false) => some (st1, false)
        | some (st1, true) => visitParents visit st1 ps

/-- `Graph::visitNode` (`private/graph.h` lines 75–91),
fuel-instrumented: a permanently marked node is done, a temporarily
marked node closes a cycle (`false`), otherwise the node is marked
temporary, its parents are visited, and on success the node is marked
permanent and appended to the output. -/
def visitNode : Nat → SortState → Nat → Option (SortState × Bool)
  | 0, _, _ => none
  | fuel + 1, st, i =>
      match st.nodes.get? i with
      | none => none
      | some nd =>
          if nd.flag = Graph.Flag.MARK_PERMANENT then some (st, true)
          else if nd.flag = Graph.Flag.MARK_TEMP then some (st, false)
          else
            match visitParents (visitNode fuel)
                { st with nodes := setFlagList st.nodes i Graph.Flag.MARK_TEMP }
                nd.parentNodes with
            | none => none
            | some (st1, false) => some (st1, false)
            | some (st1, true) =>
                some ({ nodes := setFlagList st1.nodes i Graph.Flag.MARK_PERMANENT,
                        out := st1.out ++ [nd.name] }, true)

/-- The node loop of `Graph::topologicalSort`: visits every index whose
node is still unmarked, aborting on the first cycle. -/
def topoVisitAll (fuel : Nat) : SortState → List Nat → Option (SortState × Bool)
  | st, [] => some (st, true)
  | st, i :: is =>
      match st.nodes.get? i with
      | none => none
      | some nd =>
          if nd.flag = Graph.Flag.UNMARKED then
            match visitNode fuel st i with
            | none => none
            | some (st1, false) => some (st1, false)
            | some (st1, true) => topoVisitAll fuel st1 is
      else topoVisitAll fuel st is

/-- `Graph::topologicalSort(error)` (`private/graph.h` lines 51–69):
returns the name list and the error flag; on a cycle the output is the
empty list and `error` is `true`. -/
def Graph.topologicalSort (fuel : Nat) (nodes : List Graph.Node) :
    Option (List String × Bool) :=
  match topoVisitAll fuel { nodes := nodes, out := [] } (List.range nodes.length) with
  | none => none
  | some (st, true) => some (st.out, false)
  | some (_, false) => some ([], true)

example :
    Graph.topologicalSort 10
      [{ name := "A" }, { name := "B", parentNodes := [0] },
       { name := "C", parentNodes := [1] }] = some (["A", "B", "C"], false) := by decide

example :
    Graph.topologicalSort 10
      [{ name := "A", parentNodes := [1] }, { name := "B", parentNodes := [0] }]
      = some ([], true) := by decide

example :
    Graph.topologicalSort 10 [{ name := "A", parentNodes := [0] }]
      = some ([], true) := by decide

/-! ### Metatheory of the DFS sort -/

/-- The node at index `i` carries flag `fl`. -/
def SortState.flagIs (st : SortState) (i : Nat) (fl : Graph.Flag) : Prop :=
  ∃ nd, st.nodes.get? i = some nd ∧ nd.flag = fl

theorem get_setFlagList (l : List Graph.Node) (i j : Nat) (fl : Graph.Flag) :
    (setFlagList l i fl).get? j =
      if i = j then (l.get? j).map (fun nd => { nd with flag := fl })
      else l.get? j := by
  induction l generalizing i j with
  | nil => cases i <;> cases j <;> simp [setFlagList]
  | cons nd rest ih =>
      cases i with
      | zero => cases j <;> simp [setFlagList]
      | succ i' =>
          cases j with
          | zero => simp [setFlagList]
          | succ j' =>
              simp only [setFlagList, List.get?]
              rw [ih i' j']
              by_cases h : i' = j' <;> simp [h]

/-- Nodes agree on names and parent lists (only flags may differ). -/
def NodesShape (l l' : List Graph.Node) : Prop :=
  l'.map (fun nd => (nd.name, nd.parentNodes)) = l.map (fun nd => (nd.name, nd.parentNodes))

theorem NodesShape.refl_ns (l : List Graph.Node) : NodesShape l l := rfl

theorem NodesShape.trans_ns {a b c : List Graph.Node} (h1 : NodesShape a b)
    (h2 : NodesShape b c) : NodesShape a c := by
  unfold NodesShape at *
  rw [h2, h1]

theorem NodesShape.length_eq {l l' : List Graph.Node} (h : NodesShape l l') :
    l'.length = l.length := by
  have := congrArg List.length h
  simpa using this

theorem map_get? {α β : Type} (f : α → β) (l : List α) (j : Nat) :
    (l.map f).get? j = (l.get? j).map f := by
  induction l generalizing j with
  | nil => simp
  | cons a rest ih => cases j <;> simp [ih]

theorem NodesShape.get_some {l l' : List Graph.Node} (h : NodesShape l l') {j : Nat}
    {nd : Graph.Node} (hj : l.get? j = some nd) :
    ∃ nd', l'.get? j = some nd' ∧ nd'.name = nd.name ∧
      nd'.parentNodes = nd.parentNodes := by
  have hmaps := congrArg (fun t => t.get? j) h
  simp only [map_get?] at hmaps
  rw [hj] at hmaps
  cases hq : l'.get? j with
  | none => rw [hq] at hmaps; simp at hmaps
  | some nd' =>
      rw [hq] at hmaps
      simp at hmaps
      exact ⟨nd', rfl, hmaps.1, hmaps.2⟩

theorem NodesShape.get_none {l l' : List Graph.Node} (h : NodesShape l l') {j : Nat}
    (hj : l.get? j = none) : l'.get? j = none := by
  have hmaps := congrArg (fun t => t.get? j) h
  simp only [map_get?] at hmaps
  rw [hj] at hmaps
  cases hq : l'.get? j with
  | none => rfl
  | some nd' => rw [hq] at hmaps; simp at hmaps

theorem setFlagList_shape (l : List Graph.Node) (i : Nat) (fl : Graph.Flag) :
    NodesShape l (setFlagList l i fl) := by
  induction l generalizing i with
  | nil => cases i <;> rfl
  | cons nd rest ih =>
      cases i with
      | zero => simp [setFlagList, NodesShape]
      | succ i' =>
          unfold NodesShape at ih ⊢
          simp only [setFlagList, List.map]
          rw [ih i']

/-- Flag evolution along a successful visit: permanent and temporary
marks persist, and no new temporary marks appear. -/
def FlagStep (st st' : SortState) : Prop :=
  (∀ j, st.flagIs j Graph.Flag.MARK_PERMANENT → st'.flagIs j Graph.Flag.MARK_PERMANENT) ∧
  (∀ j, st.flagIs j Graph.Flag.MARK_TEMP → st'.flagIs j Graph.Flag.MARK_TEMP) ∧
  (∀ j, st'.flagIs j Graph.Flag.MARK_TEMP → st.flagIs j Graph.Flag.MARK_TEMP)

theorem FlagStep.refl_fs (st : SortState) : FlagStep st st :=
  ⟨fun _ h => h, fun _ h => h, fun _ h => h⟩

theorem FlagStep.trans_fs {a b c : SortState} (h1 : FlagStep a b) (h2 : FlagStep b c) :
    FlagStep a c :=
  ⟨fun j h => h2.1 j (h1.1 j h), fun j h => h2.2.1 j (h1.2.1 j h),
   fun j h => h1.2.2 j (h2.2.2 j h)⟩

/-- Combined evolution facts of one successful visit. -/
def VisitOk (st st' : SortState) : Prop :=
  NodesShape st.nodes st'.nodes ∧ FlagStep st st' ∧ ∃ t, st'.out = st.out ++ t

theorem VisitOk.refl_vo (st : SortState) : VisitOk st st :=
  ⟨NodesShape.refl_ns _, FlagStep.refl_fs _, [], by simp⟩

theorem VisitOk.trans_vo {a b c : SortState} (h1 : VisitOk a b) (h2 : VisitOk b c) :
    VisitOk a c := by
  obtain ⟨hs1, hf1, t1, ho1⟩ := h1
  obtain ⟨hs2, hf2, t2, ho2⟩ := h2
  exact ⟨hs1.trans_ns hs2, hf1.trans_fs hf2, t1 ++ t2, by rw [ho2, ho1, List.append_assoc]⟩

theorem visitParents_post (visit : SortState → Nat → Option (SortState × Bool))
    (HV : ∀ st i st', visit st i = some (st', true) →
      VisitOk st st' ∧ st'.flagIs i Graph.Flag.MARK_PERMANENT) :
    ∀ (ps : List Int) (st st' : SortState),
      visitParents visit st ps = some (st', true) →
      VisitOk st st' ∧ ∀ p ∈ ps, 0 ≤ p ∧ st'.flagIs p.toNat Graph.Flag.MARK_PERMANENT := by
  intro ps
  induction ps with
  | nil =>
      intro st st' h
      simp [visitParents] at h
      subst h
      exact ⟨VisitOk.refl_vo _, by simp⟩
  | cons p ps ih =>
      intro st st' h
      simp only [visitParents] at h
      by_cases hp : p < 0
      · simp [hp] at h
      · simp only [hp, if_false] at h
        cases hv : visit st p.toNat with
        | none => rw [hv] at h; exact Option.noConfusion h
        | some r =>
            obtain ⟨st1, b1⟩ := r
            rw [hv] at h
            cases b1 with
            | false => simp at h
            | true =>
                simp only at h
                obtain ⟨hok1, hperm1⟩ := HV st p.toNat st1 hv
                obtain ⟨hok2, hps⟩ := ih st1 st' h
                refine ⟨hok1.trans_vo hok2, ?_⟩
                intro q hq
                rcases List.mem_cons.mp hq with hq | hq
                · subst hq
                  exact ⟨by omega, hok2.2.1.1 _ hperm1⟩
                · exact hps q hq

theorem visitNode_post :
    ∀ (fuel : Nat) (st : SortState) (i : Nat) (st' : SortState),
      visitNode fuel st i = some (st', true) →
      VisitOk st st' ∧ st'.flagIs i Graph.Flag.MARK_PERMANENT := by
  intro fuel
  induction fuel with
  | zero => intro st i st' h; simp [visitNode] at h
  | succ f ih =>
      intro st i st' h
      simp only [visitNode] at h
      cases hnd : st.nodes.get? i with
      | none => rw [hnd] at h; exact Option.noConfusion h
      | some nd =>
          rw [hnd] at h
          simp only at h
          by_cases hP : nd.flag = Graph.Flag.MARK_PERMANENT
          · simp only [hP, if_true] at h
            injection h with h
            injection h with h1 h2
            subst h1
            exact ⟨VisitOk.refl_vo _, nd, hnd, hP⟩
          · by_cases hT : nd.flag = Graph.Flag.MARK_TEMP
            · simp [hP, hT] at h
            · simp only [hP, hT, if_false] at h
              have hU : nd.flag = Graph.Flag.UNMARKED := by
                cases hfl : nd.flag
                · rfl
                · exact absurd hfl hT
                · exact absurd hfl hP
              set stT : SortState :=
                { st with nodes := setFlagList st.nodes i Graph.Flag.MARK_TEMP } with hstT
              cases hvp : visitParents (visitNode f) stT nd.parentNodes with
              | none => rw [hvp] at h; exact Option.noConfusion h
              | some r =>
                  obtain ⟨st1, b1⟩ := r
                  rw [hvp] at h
                  cases b1 with
                  | false => simp at h
                  | true =>
                      simp only at h
                      injection h with h
                      injection h with h1 h2
                      obtain ⟨hok1, -⟩ :=
                        visitParents_post (visitNode f) (fun a b c hd => ih a b c hd)
                          nd.parentNodes stT st1 hvp
                      have hilen : i < st.nodes.length := by
                        by_contra hge
                        rw [List.get?_eq_none.mpr (by omega)] at hnd
                        exact Option.noConfusion hnd
                      have hlen1 : st1.nodes.length = st.nodes.length := by
                        have e1 : NodesShape st.nodes stT.nodes := setFlagList_shape _ _ _
                        exact (e1.trans_ns hok1.1).length_eq
                      -- flags of st1 at i: still MARK_TEMP (set before the
                      -- parent walk, and temporary marks persist)
                      have hTi : st1.flagIs i Graph.Flag.MARK_TEMP := by
                        apply hok1.2.1.2.1
                        refine ⟨{ nd with flag := Graph.Flag.MARK_TEMP }, ?_, rfl⟩
                        show (setFlagList st.nodes i Graph.Flag.MARK_TEMP).get? i = _
                        rw [get_setFlagList, if_pos rfl, hnd]
                        rfl
                      refine ⟨⟨?_, ⟨?_, ?_, ?_⟩, ?_⟩, ?_⟩
                      · -- shape
                        rw [← h1]
                        exact ((setFlagList_shape _ _ _).trans hok1.1).trans
                          (setFlagList_shape _ _ _)
                      · -- permanent marks persist
                        intro j hjP
                        have hji : j ≠ i := by
                          intro hji
                          subst hji
                          obtain ⟨nd0, hnd0, hfl0⟩ := hjP
                          rw [hnd] at hnd0
                          injection hnd0 with hnd0
                          subst hnd0
                          rw [hU] at hfl0
                          exact Graph.Flag.noConfusion hfl0
                        have hjT : stT.flagIs j Graph.Flag.MARK_PERMANENT := by
                          obtain ⟨nd0, hnd0, hfl0⟩ := hjP
                          refine ⟨nd0, ?_, hfl0⟩
                          show (setFlagList st.nodes i Graph.Flag.MARK_TEMP).get? j = _
                          rw [get_setFlagList, if_neg (fun he => hji he.symm), hnd0]
                        have hj1 := hok1.2.1.1 j hjT
                        obtain ⟨nd1, hnd1, hfl1⟩ := hj1
                        refine ⟨nd1, ?_, hfl1⟩
                        rw [← h1]
                        show (setFlagList st1.nodes i Graph.Flag.MARK_PERMANENT).get? j = _
                        rw [get_setFlagList, if_neg (fun he => hji he.symm), hnd1]
                      · -- temporary marks persist
                        intro j hjT0
                        have hji : j ≠ i := by
                          intro hji
                          subst hji
                          obtain ⟨nd0, hnd0, hfl0⟩ := hjT0
                          rw [hnd] at hnd0
                          injection hnd0 with hnd0
                          subst hnd0
                          rw [hU] at hfl0
                          exact Graph.Flag.noConfusion hfl0
                        have hjT : stT.flagIs j Graph.Flag.MARK_TEMP := by
                          obtain ⟨nd0, hnd0, hfl0⟩ := hjT0
                          refine ⟨nd0, ?_, hfl0⟩
                          show (setFlagList st.nodes i Graph.Flag.MARK_TEMP).get? j = _
                          rw [get_setFlagList, if_neg (fun he => hji he.symm), hnd0]
                        have hj1 := hok1.2.1.2.1 j hjT
                        obtain ⟨nd1, hnd1, hfl1⟩ := hj1
                        refine ⟨nd1, ?_, hfl1⟩
                        rw [← h1]
                        show (setFlagList st1.nodes i Graph.Flag.MARK_PERMANENT).get? j = _
                        rw [get_setFlagList, if_neg (fun he => hji he.symm), hnd1]
                      · -- no new temporary marks
                        intro j hjT'
                        have hPermI : st'.flagIs i Graph.Flag.MARK_PERMANENT := by
                          cases hq : st1.nodes.get? i with
                          | none =>
                              rw [List.get?_eq_none] at hq
                              omega
                          | some nd1 =>
                              refine ⟨{ nd1 with flag := Graph.Flag.MARK_PERMANENT }, ?_, rfl⟩
                              rw [← h1]
                              show (setFlagList st1.nodes i Graph.Flag.MARK_PERMANENT).get? i = _
                              rw [get_setFlagList, if_pos rfl, hq]
                              rfl
                        have hji : j ≠ i := by
                          intro hji
                          obtain ⟨nd0, hnd0, hfl0⟩ := hjT'
                          obtain ⟨nd1, hnd1, hfl1⟩ := hPermI
                          rw [hji] at hnd0
                          rw [hnd1] at hnd0
                          injection hnd0 with hnd0
                          rw [hnd0] at hfl1
                          rw [hfl0] at hfl1
                          exact Graph.Flag.noConfusion hfl1
                        have hj1 : st1.flagIs j Graph.Flag.MARK_TEMP := by
                          obtain ⟨nd0, hnd0, hfl0⟩ := hjT'
                          rw [← h1] at hnd0
                          refine ⟨nd0, ?_, hfl0⟩
                          have heq : (setFlagList st1.nodes i Graph.Flag.MARK_PERMANENT).get? j
                              = st1.nodes.get? j := by
                            rw [get_setFlagList, if_neg (fun he => hji he.symm)]
                          rw [← heq]
                          exact hnd0
                        have hjT := hok1.2.1.2.2 j hj1
                        obtain ⟨nd0, hnd0, hfl0⟩ := hjT
                        have hnd0' : st.nodes.get? j = some nd0 := by
                          have heq : (setFlagList st.nodes i Graph.Flag.MARK_TEMP).get? j
                              = st.nodes.get? j := by
                            rw [get_setFlagList, if_neg (fun he => hji he.symm)]
                          rw [← heq]
                          exact hnd0
                        exact ⟨nd0, hnd0', hfl0⟩
                      · -- the output only grows
                        obtain ⟨t, ht⟩ := hok1.2.2
                        refine ⟨t ++ [nd.name], ?_⟩
                        rw [← h1]
                        show st1.out ++ [nd.name] = st.out ++ (t ++ [nd.name])
                        rw [ht]
                        simp
                      · -- the visited node ends permanently marked
                        cases hq : st1.nodes.get? i with
                        | none =>
                            rw [List.get?_eq_none] at hq
                            omega
                        | some nd1 =>
                            refine ⟨{ nd1 with flag := Graph.Flag.MARK_PERMANENT }, ?_, rfl⟩
                            rw [← h1]
                            show (setFlagList st1.nodes i Graph.Flag.MARK_PERMANENT).get? i = _
                            rw [get_setFlagList, if_pos rfl, hq]
                            rfl

/-- Well-formedness carried by the sort: distinct node names. -/
def NamesND (st : SortState) : Prop :=
  (st.nodes.map Graph.Node.name).Nodup

theorem namesND_shape {st st' : SortState} (hs : NodesShape st.nodes st'.nodes)
    (h : NamesND st) : NamesND st' := by
  unfold NamesND at *
  have he : st'.nodes.map Graph.Node.name = st.nodes.map Graph.Node.name := by
    have := congrArg (fun t => t.map Prod.fst) hs
    simpa [Function.comp] using this
  rw [he]
  exact h

/-- The running invariant of the DFS: the output lists exactly the
permanently marked nodes, without duplicates, and in an order where all
parents of a permanent node precede it; every output entry names a
node. -/
def SortInv (st : SortState) : Prop :=
  (∀ i nd, st.nodes.get? i = some nd →
      (nd.flag = Graph.Flag.MARK_PERMANENT ↔ nd.name ∈ st.out)) ∧
  st.out.Nodup ∧
  (∀ i nd, st.nodes.get? i = some nd → nd.flag = Graph.Flag.MARK_PERMANENT →
      ∀ p ∈ nd.parentNodes, 0 ≤ p ∧ ∃ pn, st.nodes.get? p.toNat = some pn ∧
        pn.flag = Graph.Flag.MARK_PERMANENT ∧
        ∃ l1 l2, st.out = l1 ++ nd.name :: l2 ∧ pn.name ∈ l1) ∧
  (∀ s ∈ st.out, ∃ i nd, st.nodes.get? i = some nd ∧ nd.name = s)

theorem visitParents_inv (visit : SortState → Nat → Option (SortState × Bool))
    (HVp : ∀ st i st', visit st i = some (st', true) →
      VisitOk st st' ∧ st'.flagIs i Graph.Flag.MARK_PERMANENT)
    (HVi : ∀ st i st', NamesND st → SortInv st → visit st i = some (st', true) →
      SortInv st') :
    ∀ (ps : List Int) (st st' : SortState), NamesND st → SortInv st →
      visitParents visit st ps = some (st', true) → SortInv st' := by
  intro ps
  induction ps with
  | nil =>
      intro st st' hnd hinv h
      simp [visitParents] at h
      subst h
      exact hinv
  | cons p ps ih =>
      intro st st' hnd hinv h
      simp only [visitParents] at h
      by_cases hp : p < 0
      · simp [hp] at h
      · simp only [hp, if_false] at h
        cases hv : visit st p.toNat with
        | none => rw [hv] at h; exact Option.noConfusion h
        | some r =>
            obtain ⟨st1, b1⟩ := r
            rw [hv] at h
            cases b1 with
            | false => simp at h
            | true =>
                simp only at h
                have hinv1 := HVi st p.toNat st1 hnd hinv hv
                have hnd1 := namesND_shape (HVp st p.toNat st1 hv).1.1 hnd
                exact ih st1 st' hnd1 hinv1 h

theorem namesND_distinct {st : SortState} (h : NamesND st) {i j : Nat}
    {a b : Graph.Node} (ha : st.nodes.get? i = some a) (hb : st.nodes.get? j = some b)
    (hij : i ≠ j) : a.name ≠ b.name := by
  intro he
  apply hij
  have hilen : i < st.nodes.length := by
    by_contra hge
    rw [List.get?_eq_none.mpr (by omega)] at ha
    exact Option.noConfusion ha
  have hmapi : (st.nodes.map Graph.Node.name).get? i
      = (st.nodes.map Graph.Node.name).get? j := by
    rw [map_get?, map_get?, ha, hb]
    simp [he]
  exact List.get?_inj (by simpa using hilen) h hmapi

theorem visitNode_inv :
    ∀ (fuel : Nat) (st : SortState) (i : Nat) (st' : SortState),
      NamesND st → SortInv st → visitNode fuel st i = some (st', true) → SortInv st' := by
  intro fuel
  induction fuel with
  | zero => intro st i st' _ _ h; simp [visitNode] at h
  | succ f ih =>
      intro st i st' hnames hinv h
      simp only [visitNode] at h
      cases hnd : st.nodes.get? i with
      | none => rw [hnd] at h; exact Option.noConfusion h
      | some nd =>
          rw [hnd] at h
          simp only at h
          by_cases hP : nd.flag = Graph.Flag.MARK_PERMANENT
          · simp only [hP, if_true] at h
            injection h with h
            injection h with h1 h2
            subst h1
            exact hinv
          · by_cases hT : nd.flag = Graph.Flag.MARK_TEMP
            · simp [hP, hT] at h
            · simp only [hP, hT, if_false] at h
              have hU : nd.flag = Graph.Flag.UNMARKED := by
                cases hfl : nd.flag
                · rfl
                · exact absurd hfl hT
                · exact absurd hfl hP
              set stT : SortState :=
                { st with nodes := setFlagList st.nodes i Graph.Flag.MARK_TEMP } with hstT
              cases hvp : visitParents (visitNode f) stT nd.parentNodes with
              | none => rw [hvp] at h; exact Option.noConfusion h
              | some r =>
                  obtain ⟨st1, b1⟩ := r
                  rw [hvp] at h
                  cases b1 with
                  | false => simp at h
                  | true =>
                      simp only at h
                      injection h with h
                      injection h with h1 h2
                      -- invariants at the intermediate states
                      have hshapeT : NodesShape st.nodes stT.nodes := setFlagList_shape _ _ _
                      have hnamesT : NamesND stT := namesND_shape hshapeT hnames
                      have hinvT : SortInv stT := by
                        obtain ⟨hi1, hi2, hi3, hi4⟩ := hinv
                        refine ⟨?_, hi2, ?_, ?_⟩
                        · intro j nd' hj
                          show nd'.flag = Graph.Flag.MARK_PERMANENT ↔ nd'.name ∈ st.out
                          have hj' : (setFlagList st.nodes i Graph.Flag.MARK_TEMP).get? j
                              = some nd' := hj
                          rw [get_setFlagList] at hj'
                          by_cases hij : i = j
                          · rw [if_pos hij, ← hij, hnd] at hj'
                            injection hj' with hj'
                            rw [← hj']
                            simp only []
                            constructor
                            · intro hcontra
                              exact absurd hcontra (by simp)
                            · intro hmem
                              exact absurd hmem (by rw [← (hi1 i nd hnd)]; rw [hU]; simp)
                          · rw [if_neg hij] at hj'
                            exact hi1 j nd' hj'
                        · intro j nd' hj hPerm p hp
                          have hj' : (setFlagList st.nodes i Graph.Flag.MARK_TEMP).get? j
                              = some nd' := hj
                          rw [get_setFlagList] at hj'
                          by_cases hij : i = j
                          · rw [if_pos hij, ← hij, hnd] at hj'
                            injection hj' with hj'
                            rw [← hj'] at hPerm
                            exact absurd hPerm (by simp)
                          · rw [if_neg hij] at hj'
                            obtain ⟨hge, pn, hpn, hpnPerm, l1, l2, hsplit, hmem⟩ :=
                              hi3 j nd' hj' hPerm p hp
                            refine ⟨hge, pn, ?_, hpnPerm, l1, l2, hsplit, hmem⟩
                            show (setFlagList st.nodes i Graph.Flag.MARK_TEMP).get? p.toNat
                              = some pn
                            rw [get_setFlagList]
                            have hpi : i ≠ p.toNat := by
                              intro he
                              rw [← he, hnd] at hpn
                              injection hpn with hpn
                              rw [← hpn] at hpnPerm
                              rw [hU] at hpnPerm
                              exact Graph.Flag.noConfusion hpnPerm
                            rw [if_neg hpi]
                            exact hpn
                        · intro s hs
                          obtain ⟨j, nd', hj, hname⟩ := hi4 s hs
                          obtain ⟨nd'', hj'', hn'', -⟩ := hshapeT.get_some hj
                          exact ⟨j, nd'', hj'', by rw [hn'', hname]⟩
                      have hinv1 : SortInv st1 :=
                        visitParents_inv (visitNode f)
                          (fun a b c hd => visitNode_post f a b c hd)
                          (fun a b c hn hv hd => ih a b c hn hv hd)
                          nd.parentNodes stT st1 hnamesT hinvT hvp
                      obtain ⟨hok1, hparents⟩ :=
                        visitParents_post (visitNode f)
                          (fun a b c hd => visitNode_post f a b c hd)
                          nd.parentNodes stT st1 hvp
                      have hnames1 : NamesND st1 := namesND_shape hok1.1 hnamesT
                      have hilen : i < st.nodes.length := by
                        by_contra hge
                        rw [List.get?_eq_none.mpr (by omega)] at hnd
                        exact Option.noConfusion hnd
                      have hlen1 : st1.nodes.length = st.nodes.length :=
                        (hshapeT.trans_ns hok1.1).length_eq
                      -- the node at i in st1: same name and parents, flag TEMP
                      have hndT : stT.nodes.get? i
                          = some { nd with flag := Graph.Flag.MARK_TEMP } := by
                        show (setFlagList st.nodes i Graph.Flag.MARK_TEMP).get? i = _
                        rw [get_setFlagList, if_pos rfl, hnd]
                        rfl
                      obtain ⟨nd1, hnd1, hname1, hpar1⟩ := hok1.1.get_some hndT
                      have hflag1 : nd1.flag = Graph.Flag.MARK_TEMP := by
                        obtain ⟨nd1', hnd1', hfl'⟩ := hok1.2.1.2.1 i
                          ⟨{ nd with flag := Graph.Flag.MARK_TEMP }, hndT, rfl⟩
                        rw [hnd1] at hnd1'
                        injection hnd1' with he
                        rw [he]
                        exact hfl'
                      have hnotout1 : nd.name ∉ st1.out := by
                        intro hmem
                        have := (hinv1.1 i nd1 hnd1).mpr (by rw [hname1]; exact hmem)
                        rw [hflag1] at this
                        exact Graph.Flag.noConfusion this
                      -- now establish the invariant at the final state
                      rw [← h1]
                      obtain ⟨h1inv, h2inv, h3inv, h4inv⟩ := hinv1
                      refine ⟨?_, ?_, ?_, ?_⟩
                      · intro j nd' hj
                        have hj' : (setFlagList st1.nodes i Graph.Flag.MARK_PERMANENT).get? j
                            = some nd' := hj
                        rw [get_setFlagList] at hj'
                        show nd'.flag = Graph.Flag.MARK_PERMANENT ↔
                          nd'.name ∈ st1.out ++ [nd.name]
                        by_cases hij : i = j
                        · rw [if_pos hij] at hj'
                          rw [← hij] at hj'
                          rw [hnd1] at hj'
                          injection hj' with hj'
                          rw [← hj']
                          simp [hname1]
                        · rw [if_neg hij] at hj'
                          rw [h1inv j nd' hj']
                          constructor
                          · intro hmem
                            simp [hmem]
                          · intro hmem
                            rcases List.mem_append.mp hmem with hmem | hmem
                            · exact hmem
                            · simp at hmem
                              have hne : nd'.name ≠ nd1.name :=
                                namesND_distinct hnames1 hj' hnd1 (fun he => hij he.symm)
                              rw [hname1] at hne
                              exact absurd hmem hne
                      · exact List.Nodup.append h2inv (by simp)
                          (by
                            intro a ha hb
                            simp at hb
                            rw [hb] at ha
                            exact hnotout1 ha)
                      · intro j nd' hj hPerm p hp
                        have hj' : (setFlagList st1.nodes i Graph.Flag.MARK_PERMANENT).get? j
                            = some nd' := hj
                        rw [get_setFlagList] at hj'
                        by_cases hij : i = j
                        · -- the freshly appended node: parents are in st1.out
                          rw [if_pos hij, ← hij, hnd1] at hj'
                          injection hj' with hj'
                          have hj'par : nd'.parentNodes = nd.parentNodes := by
                            rw [← hj']
                            simp [hpar1]
                          rw [hj'par] at hp
                          obtain ⟨hge, hpPerm⟩ := hparents p hp
                          obtain ⟨pn, hpn, hpnfl⟩ := hpPerm
                          have hpi : i ≠ p.toNat := by
                            intro he
                            rw [← he, hnd1] at hpn
                            injection hpn with hpn
                            rw [← hpn] at hpnfl
                            rw [hflag1] at hpnfl
                            exact Graph.Flag.noConfusion hpnfl
                          refine ⟨hge, pn, ?_, hpnfl, st1.out, [], ?_, ?_⟩
                          · show (setFlagList st1.nodes i
                                Graph.Flag.MARK_PERMANENT).get? p.toNat = some pn
                            rw [get_setFlagList, if_neg hpi]
                            exact hpn
                          · rw [← hj']
                            simp [hname1]
                          · exact (h1inv p.toNat pn hpn).mp hpnfl
                        · -- an already permanent node: extend its split
                          rw [if_neg hij] at hj'
                          obtain ⟨hge, pn, hpn, hpnPerm, l1, l2, hsplit, hmem⟩ :=
                            h3inv j nd' hj' hPerm p hp
                          have hpi : i ≠ p.toNat := by
                            intro he
                            rw [← he, hnd1] at hpn
                            injection hpn with hpn
                            rw [← hpn] at hpnPerm
                            rw [hflag1] at hpnPerm
                            exact Graph.Flag.noConfusion hpnPerm
                          refine ⟨hge, pn, ?_, hpnPerm, l1, l2 ++ [nd.name], ?_, hmem⟩
                          · show (setFlagList st1.nodes i
                                Graph.Flag.MARK_PERMANENT).get? p.toNat = some pn
                            rw [get_setFlagList, if_neg hpi]
                            exact hpn
                          · show st1.out ++ [nd.name] = l1 ++ nd'.name :: (l2 ++ [nd.name])
                            rw [hsplit]
                            simp
                      · intro s hs
                        show ∃ j nd',
                          (setFlagList st1.nodes i Graph.Flag.MARK_PERMANENT).get? j
                              = some nd' ∧ nd'.name = s
                        rcases List.mem_append.mp hs with hs | hs
                        · obtain ⟨j, nd', hj, hname⟩ := h4inv s hs
                          by_cases hij : i = j
                          · refine ⟨j, { nd' with flag := Graph.Flag.MARK_PERMANENT }, ?_, hname⟩
                            rw [get_setFlagList, if_pos hij, hj]
                            rfl
                          · refine ⟨j, nd', ?_, hname⟩
                            rw [get_setFlagList, if_neg hij]
                            exact hj
                        · simp at hs
                          refine ⟨i, { nd1 with flag := Graph.Flag.MARK_PERMANENT }, ?_, ?_⟩
                          · rw [get_setFlagList, if_pos rfl, hnd1]
                            rfl
                          · rw [hs]
                            simp [hname1]

/-- No node is temporarily marked (holds between top-level visits). -/
def NoTemp (st : SortState) : Prop :=
  ∀ j, ¬st.flagIs j Graph.Flag.MARK_TEMP

theorem nodup_mid_eq {α : Type} {a : α} :
    ∀ (l1 l1' : List α) {l2 l2' : List α},
      (l1 ++ a :: l2).Nodup → l1 ++ a :: l2 = l1' ++ a :: l2' →
      l1 = l1' ∧ l2 = l2' := by
  intro l1
  induction l1 with
  | nil =>
      intro l1' l2 l2' hnd he
      cases l1' with
      | nil =>
          simp only [List.nil_append] at he
          injection he with h1 h2
          exact ⟨rfl, h2⟩
      | cons y ys =>
          simp only [List.nil_append, List.cons_append] at he
          injection he with h1 h2
          exfalso
          apply (List.nodup_cons.mp hnd).1
          rw [h2]
          exact List.mem_append_right ys (List.mem_cons_self a _)
  | cons x xs ih =>
      intro l1' l2 l2' hnd he
      cases l1' with
      | nil =>
          simp only [List.cons_append, List.nil_append] at he
          injection he with h1 h2
          subst h1
          exfalso
          apply (List.nodup_cons.mp hnd).1
          exact List.mem_append_right xs (List.mem_cons_self x _)
      | cons y ys =>
          simp only [List.cons_append] at he
          injection he with h1 h2
          have hnd' : (xs ++ a :: l2).Nodup := (List.nodup_cons.mp hnd).2
          obtain ⟨e1, e2⟩ := ih ys hnd' h2
          exact ⟨by rw [h1, e1], e2⟩

theorem topoVisitAll_post (fuel : Nat) :
    ∀ (is : List Nat) (st st' : SortState), NamesND st → SortInv st → NoTemp st →
      topoVisitAll fuel st is = some (st', true) →
      SortInv st' ∧ NoTemp st' ∧ NodesShape st.nodes st'.nodes ∧
        (∀ j, st.flagIs j Graph.Flag.MARK_PERMANENT →
          st'.flagIs j Graph.Flag.MARK_PERMANENT) ∧
        (∀ j ∈ is, st'.flagIs j Graph.Flag.MARK_PERMANENT) := by
  intro is
  induction is with
  | nil =>
      intro st st' hn hi ht h
      simp [topoVisitAll] at h
      subst h
      exact ⟨hi, ht, NodesShape.refl_ns _, fun _ h => h, by simp⟩
  | cons i is ih =>
      intro st st' hn hi ht h
      simp only [topoVisitAll] at h
      cases hnd : st.nodes.get? i with
      | none => rw [hnd] at h; exact Option.noConfusion h
      | some nd =>
          rw [hnd] at h
          simp only at h
          by_cases hU : nd.flag = Graph.Flag.UNMARKED
          · simp only [hU, if_true] at h
            cases hv : visitNode fuel st i with
            | none => rw [hv] at h; exact Option.noConfusion h
            | some r =>
                obtain ⟨st1, b1⟩ := r
                rw [hv] at h
                cases b1 with
                | false => simp at h
                | true =>
                    simp only at h
                    obtain ⟨hok, hpermI⟩ := visitNode_post fuel st i st1 hv
                    have hinv1 := visitNode_inv fuel st i st1 hn hi hv
                    have hn1 := namesND_shape hok.1 hn
                    have ht1 : NoTemp st1 := by
                      intro j hj
                      exact ht j (hok.2.1.2.2 j hj)
                    obtain ⟨ha, hb, hc, hd, he⟩ := ih st1 st' hn1 hinv1 ht1 h
                    refine ⟨ha, hb, hok.1.trans_ns hc, ?_, ?_⟩
                    · intro j hj
                      exact hd j (hok.2.1.1 j hj)
                    · intro j hj
                      rcases List.mem_cons.mp hj with hj | hj
                      · subst hj
                        exact hd j hpermI
                      · exact he j hj
          · simp only [hU, if_false] at h
            have hPerm : nd.flag = Graph.Flag.MARK_PERMANENT := by
              cases hfl : nd.flag
              · exact absurd hfl hU
              · exact absurd ⟨nd, hnd, hfl⟩ (ht i)
              · rfl
            obtain ⟨ha, hb, hc, hd, he⟩ := ih st st' hn hi ht h
            refine ⟨ha, hb, hc, hd, ?_⟩
            intro j hj
            rcases List.mem_cons.mp hj with hj | hj
            · subst hj
              exact hd j ⟨nd, hnd, hPerm⟩
            · exact he j hj

/-- Correctness of `Graph::topologicalSort` on a graph of distinct,
unmarked nodes: a successful sort emits each node name exactly once, and
every parent of a node is emitted strictly before it. -/
theorem topologicalSort_correct (fuel : Nat) (nodes : List Graph.Node)
    (order : List String)
    (hnames : (nodes.map Graph.Node.name).Nodup)
    (hunmarked : ∀ nd ∈ nodes, nd.flag = Graph.Flag.UNMARKED)
    (h : Graph.topologicalSort fuel nodes = some (order, false)) :
    order.Nodup ∧
      (∀ s, s ∈ order ↔ s ∈ nodes.map Graph.Node.name) ∧
      (∀ l1 s l2, order = l1 ++ s :: l2 →
        ∀ j nd, nodes.get? j = some nd → nd.name = s →
          ∀ p ∈ nd.parentNodes, 0 ≤ p ∧
            ∃ pn, nodes.get? p.toNat = some pn ∧ pn.name ∈ l1) := by
  unfold Graph.topologicalSort at h
  cases ht : topoVisitAll fuel { nodes := nodes, out := [] } (List.range nodes.length) with
  | none => rw [ht] at h; exact Option.noConfusion h
  | some r =>
      obtain ⟨stf, bf⟩ := r
      rw [ht] at h
      cases bf with
      | false => simp at h
      | true =>
          simp only at h
          injection h with h
          injection h with horder herr
          subst horder
          have hinit : SortInv { nodes := nodes, out := [] } := by
            refine ⟨?_, by simp, ?_, by simp⟩
            · intro i nd hi
              have : nd ∈ nodes := List.get?_mem hi
              rw [hunmarked nd this]
              simp
            · intro i nd hi hPerm
              have : nd ∈ nodes := List.get?_mem hi
              rw [hunmarked nd this] at hPerm
              exact absurd hPerm (by simp)
          have hnotemp : NoTemp { nodes := nodes, out := [] } := by
            intro j ⟨nd, hj, hfl⟩
            have : nd ∈ nodes := List.get?_mem hj
            rw [hunmarked nd this] at hfl
            exact Graph.Flag.noConfusion hfl
          obtain ⟨hinv, -, hshape, -, hall⟩ :=
            topoVisitAll_post fuel (List.range nodes.length)
              { nodes := nodes, out := [] } stf hnames hinit hnotemp ht
          have hshape' : NodesShape stf.nodes nodes := by
            unfold NodesShape at hshape ⊢
            exact hshape.symm
          obtain ⟨i1, i2, i3, i4⟩ := hinv
          refine ⟨i2, ?_, ?_⟩
          · intro s
            constructor
            · intro hs
              obtain ⟨j, nd, hj, hname⟩ := i4 s hs
              obtain ⟨nd', hj', hn', -⟩ := hshape'.get_some hj
              rw [← hname, ← hn']
              exact List.mem_map.mpr ⟨nd', List.get?_mem hj', rfl⟩
            · intro hs
              obtain ⟨nd, hmem, hname⟩ := List.mem_map.mp hs
              obtain ⟨j, hj⟩ := List.mem_iff_get?.mp hmem
              have hjlen : j < nodes.length := by
                by_contra hge
                rw [List.get?_eq_none.mpr (by omega)] at hj
                exact Option.noConfusion hj
              have hpj := hall j (List.mem_range.mpr hjlen)
              obtain ⟨ndf, hjf, hfl⟩ := hpj
              obtain ⟨ndf', hjf', hnf', -⟩ :=
                (@NodesShape.get_some _ _ hshape j nd hj)
              rw [hjf] at hjf'
              injection hjf' with he
              have hns : ndf.name = s := by rw [he, hnf', hname]
              rw [← hns]
              exact (i1 j ndf hjf).mp hfl
          · intro l1 s l2 hsplit j nd hj hname p hp
            have hjlen : j < nodes.length := by
              by_contra hge
              rw [List.get?_eq_none.mpr (by omega)] at hj
              exact Option.noConfusion hj
            obtain ⟨ndf, hjf, hflf⟩ := hall j (List.mem_range.mpr hjlen)
            obtain ⟨ndf2, hjf2, hnf2, hpf2⟩ := hshape.get_some hj
            rw [hjf] at hjf2
            injection hjf2 with he2
            subst he2
            have hpmem : p ∈ ndf.parentNodes := by
              rw [hpf2]
              exact hp
            obtain ⟨hge, pn, hpn, hpnPerm, l1', l2', hsplit', hmem'⟩ :=
              i3 j ndf hjf hflf p hpmem
            obtain ⟨pn0, hpn0, hpn0n, -⟩ := hshape'.get_some hpn
            have hnames_eq : ndf.name = s := by
              rw [hnf2, hname]
            rw [hnames_eq] at hsplit'
            rw [hsplit] at hsplit' i2
            obtain ⟨hl1, -⟩ := nodup_mid_eq l1 l1' i2 hsplit'
            refine ⟨hge, pn0, hpn0, ?_⟩
            rw [hpn0n]
            rw [hl1]
            exact hmem'

/-! ### Phase 2 — `PluginManager::loadPlugins` -/

/-- `PluginMap.setGraphId` lookups. -/
theorem PluginMap.lookup_setGraphId_self (m : PluginMap) (key : String) (v : Int) :
    (m.setGraphId key v).lookup key
      = (m.lookup key).map (fun p => { p with graphId := v }) :=
  PluginMap.lookup_update_self m key _

theorem PluginMap.lookup_setGraphId_ne (m : PluginMap) (key k : String) (v : Int)
    (h : key ≠ k) : (m.setGraphId key v).lookup k = m.lookup k :=
  PluginMap.lookup_update_ne m key k _ h

/-- The graph ids of a record's dependencies, read through
`pluginsMap[dep.name]->graphId` (`pluginmanager.cpp` lines 284–285);
`none` models the null dereference after `operator[]` default-inserts a
missing name. -/
def depGraphIds (m : PluginMap) : List Dependency → Option (List Int)
  | [] => some []
  | d :: ds =>
      match m.lookup d.name with
      | none => none
      | some q => (depGraphIds m ds).map (fun rest => q.graphId :: rest)

/-- Appends parent ids to the node at an index. -/
def appendParents : List Graph.Node → Nat → List Int → List Graph.Node
  | [], _, _ => []
  | nd :: rest, 0, ps => { nd with parentNodes := nd.parentNodes ++ ps } :: rest
  | nd :: rest, i + 1, ps => nd :: appendParents rest i ps

/-- The first loop of `loadPlugins` (`pluginmanager.cpp` lines 257–276):
for each registry key in iteration order, reset its `graphId`, run the
resolver, abort on failure when `tryToContinue` is false, and collect a
graph node for every record whose verdict is `true`. -/
def loadLoop1 (fuel : Nat) (tryToContinue : Bool) :
    List String → PluginMap → List Graph.Node →
    Option (Sum (ReturnCodeT × PluginMap) (PluginMap × List Graph.Node))
  | [], m, nodes => some (Sum.inr (m, nodes))
  | k :: ks, m, nodes =>
      let m0 := m.setGraphId k (-1)
      match checkDependencies fuel m0 k with
      | none => none
      | some (rc, m1) =>
          if !tryToContinue && !rc.toBool then some (Sum.inl (rc, m1))
          else
            match m1.lookup k with
            | none => none
            | some p =>
                if p.dependenciesExists.eqBool true then
                  loadLoop1 fuel tryToContinue ks
                    (m1.setGraphId k (nodes.length : Int)) (nodes ++ [{ name := k }])
                else loadLoop1 fuel tryToContinue ks m1 nodes

/-- The second loop of `loadPlugins` (`pluginmanager.cpp` lines
279–287): for each record that received a graph id, push the graph ids
of its dependencies as parent edges of its node. -/
def fillLoop (m : PluginMap) : List String → List Graph.Node → Option (List Graph.Node)
  | [], nodes => some nodes
  | k :: ks, nodes =>
      match m.lookup k with
      | none => none
      | some p =>
          if p.graphId ≠ -1 then
            match depGraphIds m p.info.dependencies with
            | none => none
            | some ps =>
                if p.graphId < 0 ∨ nodes.length ≤ p.graphId.toNat then none
                else fillLoop m ks (appendParents nodes p.graphId.toNat ps)
          else fillLoop m ks nodes

/-- Presence of every dependency record
(`pluginsMap[depName]->iplugin.get()` dereferences a default-inserted
null pointer when one is missing). -/
def allDepsPresent (m : PluginMap) : List Dependency → Bool
  | [] => true
  | d :: ds => m.containsKey d.name && allDepsPresent m ds

/-- `PlugMgrPrivate::loadPlugin` (`src/unnamed/part_009` lines 289–303):
fetch the `jp_createPlugin` factory, gather the dependency instances,
create the plug-in object and call its `loaded()` hook.  `none` models
the undefined behaviour when the factory symbol or a dependency record
is missing. -/
def loadPlugin (m : PluginMap) (key : String) : Option PluginMap :=
  match m.lookup key with
  | none => none
  | some p =>
      match p.lib.handle with
      | none => none
      | some img =>
          if "jp_createPlugin" ∈ img.symbols then
            if allDepsPresent m p.info.dependencies then
              some (m.update key (fun q =>
                { q with iplugin := true, lib := (q.lib.getImpl "jp_createPlugin").fst }))
            else none
          else none

/-- `PlugMgrPrivate::loadPluginsInOrder`. -/
def loadPluginsInOrder (m : PluginMap) : List String → Option PluginMap
  | [] => some m
  | k :: ks =>
      match loadPlugin m k with
      | none => none
      | some m' => loadPluginsInOrder m' ks

/-- `PluginManager::loadPlugins(tryToContinue, callback)`
(`pluginmanager.cpp` lines 245–320): the resolver pass and node
collection, the edge fill, the topological sort (whose output is
assigned to `loadOrderList` before the error check), the ordered
activation, and the main-plugin hook.  The reporter callback is ignored
(it does not influence state or result); `fuel` bounds the resolver
recursion and the DFS. -/
def loadPlugins (fuel : Nat) (tryToContinue : Bool) (st : MgrState) :
    Option (ReturnCodeT × MgrState) :=
  match loadLoop1 fuel tryToContinue (st.pluginsMap.map Prod.fst) st.pluginsMap [] with
  | none => none
  | some (Sum.inl (rc, m1)) => some (rc, { st with pluginsMap := m1 })
  | some (Sum.inr (m1, nodes1)) =>
      match fillLoop m1 (st.pluginsMap.map Prod.fst) nodes1 with
      | none => none
      | some nodes2 =>
          match Graph.topologicalSort fuel nodes2 with
          | none => none
          | some (order, true) =>
              some (ReturnCodeT.LOAD_DEPENDENCY_CYCLE,
                { st with pluginsMap := m1, loadOrderList := order })
          | some (order, false) =>
              match loadPluginsInOrder m1 order with
              | none => none
              | some m2 =>
                  let st' := { st with pluginsMap := m2, loadOrderList := order }
                  if st.mainPluginName.isEmpty then some (ReturnCodeT.SUCCESS, st')
                  else
                    match m2.lookup st.mainPluginName with
                    | none => none
                    | some p =>
                        if p.iplugin then some (ReturnCodeT.SUCCESS, st') else none

/-! ### Transfer of soundness across graph-id and instance writes -/

/-- `m'` agrees with `m` pointwise on key presence, `info` and the
verdict (graph ids and instance/lib fields may differ). -/
def SameIV (m m' : PluginMap) : Prop :=
  ∀ k, (m'.lookup k).map (fun p => (p.info, p.dependenciesExists))
      = (m.lookup k).map (fun p => (p.info, p.dependenciesExists))

theorem SameIV.refl_siv (m : PluginMap) : SameIV m m := fun _ => rfl

theorem SameIV.trans_siv {a b c : PluginMap} (h1 : SameIV a b) (h2 : SameIV b c) :
    SameIV a c := fun k => (h2 k).trans (h1 k)

theorem SameIV.toInfoFrame_siv {m m' : PluginMap} (h : SameIV m m') : InfoFrame m m' := by
  intro k
  have := h k
  cases h1 : m.lookup k with
  | none =>
      rw [h1] at this
      cases h2 : m'.lookup k with
      | none => rfl
      | some p' => rw [h2] at this; simp at this
  | some p =>
      rw [h1] at this
      cases h2 : m'.lookup k with
      | none => rw [h2] at this; simp at this
      | some p' =>
          rw [h2] at this
          simp at this ⊢
          exact this.1

theorem SameIV.verdict_eq {m m' : PluginMap} (h : SameIV m m') (k : String) :
    m'.verdict k = m.verdict k := by
  have := h k
  unfold PluginMap.verdict
  cases h1 : m.lookup k with
  | none =>
      rw [h1] at this
      cases h2 : m'.lookup k with
      | none => rfl
      | some p' => rw [h2] at this; simp at this
  | some p =>
      rw [h1] at this
      cases h2 : m'.lookup k with
      | none => rw [h2] at this; simp at this
      | some p' =>
          rw [h2] at this
          simp at this ⊢
          exact this.2

theorem SameIV.toVMono {m m' : PluginMap} (h : SameIV m m') : VMono m m' := by
  intro k v hv _
  rw [h.verdict_eq k]
  exact hv

theorem SameIV.goodTrue {m m' : PluginMap} (h : SameIV m m') (hg : GoodTrue m) :
    GoodTrue m' := by
  intro k p' hp' hT d hd
  have hk := h k
  rw [hp'] at hk
  cases h1 : m.lookup k with
  | none => rw [h1] at hk; simp at hk
  | some p =>
      rw [h1] at hk
      simp at hk
      have hdm : d ∈ p.info.dependencies := by rw [← hk.1]; exact hd
      have hTm : p.dependenciesExists = TriBool.True := by rw [← hk.2]; exact hT
      exact DepOK.lift_dep h.toInfoFrame_siv h.toVMono (hg k p h1 hTm d hdm)

theorem SameIV.fbrel {m0 m m' : PluginMap} (h : SameIV m m') (hfb : FBRel m0 m) :
    FBRel m0 m' := by
  intro k hkF
  rw [h.verdict_eq k] at hkF
  rcases hfb k hkF with h0 | hsb
  · exact Or.inl h0
  · exact Or.inr (hsb.lift_sb h.toInfoFrame_siv)

theorem update_sameIV (m : PluginMap) (key : String) (f : Plugin → Plugin)
    (hf : ∀ p, (f p).info = p.info ∧ (f p).dependenciesExists = p.dependenciesExists) :
    SameIV m (m.update key f) := by
  intro k
  by_cases hk : key = k
  · subst hk
    rw [PluginMap.lookup_update_self]
    cases m.lookup key with
    | none => rfl
    | some p => simp [hf p]
  · rw [PluginMap.lookup_update_ne m key k f hk]

theorem setGraphId_sameIV (m : PluginMap) (key : String) (v : Int) :
    SameIV m (m.setGraphId key v) :=
  update_sameIV m key _ (fun p => ⟨rfl, rfl⟩)

theorem VFrame.lookup_fields {m m' : PluginMap} (h : VFrame m m') {k : String}
    {p : Plugin} (hp : m.lookup k = some p) :
    ∃ p', m'.lookup k = some p' ∧ p'.info = p.info ∧ p'.graphId = p.graphId := by
  obtain ⟨p', hp', he⟩ := h.lookup_some_vf hp
  obtain ⟨-, -, -, hinfo, hgid⟩ := Plugin.eraseVerdict_fields he
  exact ⟨p', hp', hinfo, hgid⟩

theorem mem_keys_of_lookup {m : PluginMap} {k : String} {p : Plugin}
    (h : m.lookup k = some p) : k ∈ m.map Prod.fst := by
  induction m with
  | nil => exact Option.noConfusion h
  | cons kp rest ih =>
      obtain ⟨k0, p0⟩ := kp
      by_cases hk : k0 = k
      · subst hk
        simp
      · simp [PluginMap.lookup, hk] at h
        simp [ih h]

theorem lookup_of_mem_keys {m : PluginMap} {k : String}
    (h : k ∈ m.map Prod.fst) : ∃ p, m.lookup k = some p := by
  induction m with
  | nil => simp at h
  | cons kp rest ih =>
      obtain ⟨k0, p0⟩ := kp
      by_cases hk : k0 = k
      · subst hk
        exact ⟨p0, by simp [PluginMap.lookup]⟩
      · simp only [List.map] at h
        rcases List.mem_cons.mp h with h1 | h1
        · exact absurd h1.symm hk
        · obtain ⟨p, hp⟩ := ih h1
          exact ⟨p, by simp [PluginMap.lookup, hk, hp]⟩

theorem update_keys (m : PluginMap) (key : String) (f : Plugin → Plugin) :
    (m.update key f).map Prod.fst = m.map Prod.fst := by
  induction m with
  | nil => rfl
  | cons kp rest ih =>
      obtain ⟨k0, p0⟩ := kp
      by_cases hk : k0 = key
      · simp [PluginMap.update, hk]
      · simp [PluginMap.update, hk, ih]

theorem vframe_keys {m m' : PluginMap} (h : VFrame m m') :
    m'.map Prod.fst = m.map Prod.fst := by
  have h1 := congrArg (fun t => t.map Prod.fst) h
  simpa [PluginMap.verdictErased, Function.comp] using h1

/-- The invariant of the first `loadPlugins` loop: registries stay
sound relative to the pass entry `m0`, collected nodes are fresh
unmarked nodes of processed `True` records whose `graphId` points back
at them, and every processed key either received a node or is
blocked-or-false with `graphId = -1`. -/
def LoopInv (m0 m : PluginMap) (nodes : List Graph.Node) (done : List String) : Prop :=
  GoodTrue m ∧ FBRel m0 m ∧ VMono m0 m ∧
  (∀ j nd, nodes.get? j = some nd →
      nd.parentNodes = [] ∧ nd.flag = Graph.Flag.UNMARKED ∧ nd.name ∈ done ∧
      ∃ p, m.lookup nd.name = some p ∧ p.graphId = (j : Int) ∧
        p.dependenciesExists = TriBool.True) ∧
  (∀ k ∈ done, ∃ p, m.lookup k = some p ∧
      ((p.dependenciesExists = TriBool.True ∧ 0 ≤ p.graphId ∧
          ∃ nd, nodes.get? p.graphId.toNat = some nd ∧ nd.name = k) ∨
        (p.graphId = -1 ∧ BOF m k)))

/-- Transfer of `LoopInv` across a `SameIV` step that does not touch the
graph ids or membership of done records. -/
theorem LoopInv.stepSameIV {m0 m m' : PluginMap} {nodes : List Graph.Node}
    {done : List String} (h : LoopInv m0 m nodes done) (hs : SameIV m m')
    (hlook : ∀ k ∈ done, m'.lookup k = m.lookup k) :
    LoopInv m0 m' nodes done := by
  obtain ⟨hg, hfb, hm0, hnode, hdone⟩ := h
  refine ⟨hs.goodTrue hg, hs.fbrel hfb, hm0.trans_vm hs.toVMono, ?_, ?_⟩
  · intro j nd hj
    obtain ⟨hp1, hp2, hp3, p, hp, hgid, hT⟩ := hnode j nd hj
    exact ⟨hp1, hp2, hp3, p, by rw [hlook nd.name hp3]; exact hp, hgid, hT⟩
  · intro k hk
    obtain ⟨p, hp, hcase⟩ := hdone k hk
    refine ⟨p, by rw [hlook k hk]; exact hp, ?_⟩
    rcases hcase with ⟨hT, hge, nd, hnd, hname⟩ | ⟨hgid, hbof⟩
    · exact Or.inl ⟨hT, hge, nd, hnd, hname⟩
    · exact Or.inr ⟨hgid, BOF.lift_bof hs.toInfoFrame_siv hs.toVMono hbof⟩

/-- Transfer of `LoopInv` across a completed `checkDependencies` call
(a `VFrame` step with its soundness facts). -/
theorem LoopInv.stepCheck {m0 m m' : PluginMap} {nodes : List Graph.Node}
    {done : List String} (h : LoopInv m0 m nodes done) (hf : VFrame m m')
    (hg' : GoodTrue m') (hfb' : FBRel m0 m') (hmono : VMono m m') :
    LoopInv m0 m' nodes done := by
  obtain ⟨hg, hfb, hm0, hnode, hdone⟩ := h
  refine ⟨hg', hfb', hm0.trans_vm hmono, ?_, ?_⟩
  · intro j nd hj
    obtain ⟨hp1, hp2, hp3, p, hp, hgid, hT⟩ := hnode j nd hj
    obtain ⟨p', hp', hinfo', hgid'⟩ := hf.lookup_fields hp
    have hvd : m'.verdict nd.name = some TriBool.True := by
      apply hmono
      · simp [PluginMap.verdict, hp, hT]
      · simp
    have hT' : p'.dependenciesExists = TriBool.True := by
      unfold PluginMap.verdict at hvd
      rw [hp'] at hvd
      simpa using hvd
    exact ⟨hp1, hp2, hp3, p', hp', by rw [hgid', hgid], hT'⟩
  · intro k hk
    obtain ⟨p, hp, hcase⟩ := hdone k hk
    obtain ⟨p', hp', hinfo', hgid'⟩ := hf.lookup_fields hp
    refine ⟨p', hp', ?_⟩
    rcases hcase with ⟨hT, hge, nd, hnd, hname⟩ | ⟨hgid, hbof⟩
    · have hvd : m'.verdict k = some TriBool.True := by
        apply hmono
        · simp [PluginMap.verdict, hp, hT]
        · simp
      have hT' : p'.dependenciesExists = TriBool.True := by
        unfold PluginMap.verdict at hvd
        rw [hp'] at hvd
        simpa using hvd
      exact Or.inl ⟨hT', by rw [hgid']; exact hge, nd, by rw [hgid']; exact hnd, hname⟩
    · exact Or.inr ⟨by rw [hgid', hgid], BOF.lift_bof hf.toInfoFrame_vf hmono hbof⟩

/-- The first `loadPlugins` loop preserves `LoopInv`, never early-returns
with `Success`, keeps the key set and only strengthens verdicts. -/
theorem loadLoop1_post (fuel : Nat) (ttc : Bool) :
    ∀ (todo done : List String) (m0 m : PluginMap) (nodes : List Graph.Node)
      (res : Sum (ReturnCodeT × PluginMap) (PluginMap × List Graph.Node)),
      (done ++ todo).Nodup →
      LoopInv m0 m nodes done →
      loadLoop1 fuel ttc todo m nodes = some res →
      (∀ rc m1, res = Sum.inl (rc, m1) →
          rc ≠ ReturnCodeT.SUCCESS ∧ VMono m m1 ∧ m1.map Prod.fst = m.map Prod.fst ∧
          GoodTrue m1 ∧ FBRel m0 m1) ∧
      (∀ m1 nodes1, res = Sum.inr (m1, nodes1) →
          LoopInv m0 m1 nodes1 (done ++ todo) ∧ VMono m m1 ∧
          m1.map Prod.fst = m.map Prod.fst) := by
  intro todo
  induction todo with
  | nil =>
      intro done m0 m nodes res hnd hinv hrun
      simp only [loadLoop1] at hrun
      injection hrun with hrun
      constructor
      · intro rc m1 hres
        rw [← hrun] at hres
        exact Sum.noConfusion hres
      · intro m1 nodes1 hres
        rw [← hrun] at hres
        injection hres with hres
        injection hres with h1 h2
        subst h1; subst h2
        exact ⟨by simpa using hinv, VMono.refl_vm m, rfl⟩
  | cons k ks ih =>
      intro done m0 m nodes res hnd hinv hrun
      simp only [loadLoop1] at hrun
      have hdisj := (List.nodup_append.mp hnd).2.2
      have hknotdone : k ∉ done := fun hk => hdisj hk (List.mem_cons_self k ks)
      have hnd' : ((done ++ [k]) ++ ks).Nodup := by
        rw [List.append_assoc]
        simpa using hnd
      have hsame : SameIV m (m.setGraphId k (-1)) := setGraphId_sameIV m k (-1)
      have hinv1 : LoopInv m0 (m.setGraphId k (-1)) nodes done := by
        refine hinv.stepSameIV hsame ?_
        intro k' hk'
        exact PluginMap.lookup_setGraphId_ne m k k' (-1)
          (fun he => hknotdone (he ▸ hk'))
      cases hchk : checkDependencies fuel (m.setGraphId k (-1)) k with
      | none => simp [hchk] at hrun
      | some rcm =>
          obtain ⟨rc1, mc⟩ := rcm
          simp only [hchk] at hrun
          have hframe : VFrame (m.setGraphId k (-1)) mc :=
            checkDependencies_frame fuel _ k rc1 mc hchk
          obtain ⟨hg1, hfb1, hm01, hnode1, hdone1⟩ := hinv1
          obtain ⟨hgc, hfbc, hmonoc, hsucc, hfail⟩ :=
            checkDependencies_sound fuel m0 _ k rc1 mc hg1 hfb1 hm01 hchk
          have hinv2 : LoopInv m0 mc nodes done :=
            LoopInv.stepCheck ⟨hg1, hfb1, hm01, hnode1, hdone1⟩ hframe hgc hfbc hmonoc
          have hmono_m_mc : VMono m mc := hsame.toVMono.trans_vm hmonoc
          have hkeys_m_mc : mc.map Prod.fst = m.map Prod.fst :=
            (vframe_keys hframe).trans (update_keys m k _)
          by_cases hstop : (!ttc && !rc1.toBool) = true
          · rw [if_pos hstop] at hrun
            injection hrun with hrun
            constructor
            · intro rc m1 hres
              rw [← hrun] at hres
              injection hres with hres
              injection hres with h1 h2
              subst h1; subst h2
              refine ⟨?_, hmono_m_mc, hkeys_m_mc, hgc, hfbc⟩
              intro hS
              have h2 := (Bool.and_eq_true _ _).mp hstop |>.2
              rw [hS] at h2
              simp [ReturnCodeT.toBool] at h2
            · intro m1 nodes1 hres
              rw [← hrun] at hres
              exact Sum.noConfusion hres
          · rw [if_neg hstop] at hrun
            cases hlk : mc.lookup k with
            | none => simp [hlk] at hrun
            | some p =>
                simp only [hlk] at hrun
                by_cases hT : p.dependenciesExists.eqBool true = true
                · rw [if_pos hT] at hrun
                  have hTT : p.dependenciesExists = TriBool.True :=
                    (TriBool.eqBool_true_iff _).mp hT
                  obtain ⟨hg2, hfb2, hm02, hnode2, hdone2⟩ := hinv2
                  have hsame2 : SameIV mc (mc.setGraphId k (nodes.length : Int)) :=
                    setGraphId_sameIV mc k _
                  have hinv3 : LoopInv m0 (mc.setGraphId k (nodes.length : Int))
                      (nodes ++ [{ name := k }]) (done ++ [k]) := by
                    refine ⟨hsame2.goodTrue hg2, hsame2.fbrel hfb2,
                      hm02.trans_vm hsame2.toVMono, ?_, ?_⟩
                    · intro j nd hj
                      by_cases hjlt : j < nodes.length
                      · rw [List.get?_append hjlt] at hj
                        obtain ⟨h1, h2, h3, q, hq, hqg, hqT⟩ := hnode2 j nd hj
                        have hne : k ≠ nd.name := fun he => hknotdone (he ▸ h3)
                        refine ⟨h1, h2, List.mem_append_left _ h3, q, ?_, hqg, hqT⟩
                        rw [PluginMap.lookup_setGraphId_ne mc k nd.name _ hne]
                        exact hq
                      · obtain ⟨hlt, -⟩ := List.get?_eq_some.mp hj
                        have hjeq : j = nodes.length := by
                          simp only [List.length_append, List.length_cons,
                            List.length_nil] at hlt
                          omega
                        subst hjeq
                        rw [List.get?_concat_length] at hj
                        injection hj with hj
                        subst hj
                        refine ⟨rfl, rfl, by simp, { p with graphId := (nodes.length : Int) },
                          ?_, rfl, hTT⟩
                        rw [PluginMap.lookup_setGraphId_self, hlk]
                        rfl
                    · intro k' hk'
                      rcases List.mem_append.mp hk' with hk'd | hk'k
                      · obtain ⟨q, hq, hcase⟩ := hdone2 k' hk'd
                        have hne : k ≠ k' := fun he => hknotdone (he ▸ hk'd)
                        refine ⟨q, ?_, ?_⟩
                        · rw [PluginMap.lookup_setGraphId_ne mc k k' _ hne]
                          exact hq
                        · rcases hcase with ⟨hqT, hge, nd, hnd, hname⟩ | ⟨hgid, hbof⟩
                          · obtain ⟨hlt, -⟩ := List.get?_eq_some.mp hnd
                            exact Or.inl ⟨hqT, hge, nd,
                              by rw [List.get?_append hlt]; exact hnd, hname⟩
                          · exact Or.inr ⟨hgid,
                              BOF.lift_bof hsame2.toInfoFrame_siv hsame2.toVMono hbof⟩
                      · have hk'eq : k' = k := by simpa using hk'k
                        subst hk'eq
                        refine ⟨{ p with graphId := (nodes.length : Int) }, ?_, ?_⟩
                        · rw [PluginMap.lookup_setGraphId_self, hlk]
                          rfl
                        · refine Or.inl ⟨hTT, by simp, { name := k' }, ?_, rfl⟩
                          simp only [Int.toNat_ofNat]
                          exact List.get?_concat_length nodes _
                  obtain ⟨IH1, IH2⟩ := ih (done ++ [k]) m0 _ _ res hnd' hinv3 hrun
                  have hmono_m_m3 : VMono m (mc.setGraphId k (nodes.length : Int)) :=
                    hmono_m_mc.trans_vm hsame2.toVMono
                  have hkeys_m_m3 :
                      (mc.setGraphId k (nodes.length : Int)).map Prod.fst
                        = m.map Prod.fst :=
                    (update_keys mc k _).trans hkeys_m_mc
                  constructor
                  · intro rc m1 hres
                    obtain ⟨ha, hb, hc, hd, he⟩ := IH1 rc m1 hres
                    exact ⟨ha, hmono_m_m3.trans_vm hb, hc.trans hkeys_m_m3, hd, he⟩
                  · intro m1 nodes1 hres
                    obtain ⟨ha, hb, hc⟩ := IH2 m1 nodes1 hres
                    rw [List.append_assoc] at ha
                    exact ⟨by simpa using ha, hmono_m_m3.trans_vm hb,
                      hc.trans hkeys_m_m3⟩
                · rw [if_neg hT] at hrun
                  have hbof : BOF mc k := by
                    by_cases hS : rc1 = ReturnCodeT.SUCCESS
                    · exfalso
                      have hv := hsucc hS
                      unfold PluginMap.verdict at hv
                      rw [hlk] at hv
                      simp at hv
                      rw [hv] at hT
                      simp [TriBool.eqBool] at hT
                    · exact hfail hS
                  have hgid : p.graphId = -1 := by
                    cases hmk : m.lookup k with
                    | none =>
                        have h0 : (m.setGraphId k (-1)).lookup k = none := by
                          rw [PluginMap.lookup_setGraphId_self, hmk]
                          rfl
                        have := hframe.lookup_none_vf h0
                        rw [this] at hlk
                        exact Option.noConfusion hlk
                    | some q =>
                        have h0 : (m.setGraphId k (-1)).lookup k
                            = some { q with graphId := -1 } := by
                          rw [PluginMap.lookup_setGraphId_self, hmk]
                          rfl
                        obtain ⟨p', hp', -, hpg⟩ := hframe.lookup_fields h0
                        rw [hlk] at hp'
                        injection hp' with hp'
                        rw [← hp'] at hpg
                        exact hpg
                  obtain ⟨hg2, hfb2, hm02, hnode2, hdone2⟩ := hinv2
                  have hinv3 : LoopInv m0 mc nodes (done ++ [k]) := by
                    refine ⟨hg2, hfb2, hm02, ?_, ?_⟩
                    · intro j nd hj
                      obtain ⟨h1, h2, h3, hrest⟩ := hnode2 j nd hj
                      exact ⟨h1, h2, List.mem_append_left _ h3, hrest⟩
                    · intro k' hk'
                      rcases List.mem_append.mp hk' with hk'd | hk'k
                      · exact hdone2 k' hk'd
                      · have hk'eq : k' = k := by simpa using hk'k
                        subst hk'eq
                        exact ⟨p, hlk, Or.inr ⟨hgid, hbof⟩⟩
                  obtain ⟨IH1, IH2⟩ := ih (done ++ [k]) m0 _ _ res hnd' hinv3 hrun
                  constructor
                  · intro rc m1 hres
                    obtain ⟨ha, hb, hc, hd, he⟩ := IH1 rc m1 hres
                    exact ⟨ha, hmono_m_mc.trans_vm hb, hc.trans hkeys_m_mc, hd, he⟩
                  · intro m1 nodes1 hres
                    obtain ⟨ha, hb, hc⟩ := IH2 m1 nodes1 hres
                    rw [List.append_assoc] at ha
                    exact ⟨by simpa using ha, hmono_m_mc.trans_vm hb,
                      hc.trans hkeys_m_mc⟩

theorem appendParents_get (ps : List Int) :
    ∀ (nodes : List Graph.Node) (i j : Nat),
      (appendParents nodes i ps).get? j
        = (nodes.get? j).map (fun nd =>
            if j = i then { nd with parentNodes := nd.parentNodes ++ ps } else nd) := by
  intro nodes
  induction nodes with
  | nil => intro i j; cases j <;> rfl
  | cons nd rest ih =>
      intro i j
      cases i with
      | zero =>
          cases j with
          | zero => simp [appendParents]
          | succ j' => simp [appendParents]
      | succ i' =>
          cases j with
          | zero => simp [appendParents]
          | succ j' =>
              simp only [appendParents, List.get?, ih i' j', Nat.succ.injEq]

theorem depGraphIds_mem (m : PluginMap) :
    ∀ (ds : List Dependency) (ps : List Int) (i : Int),
      depGraphIds m ds = some ps → i ∈ ps →
      ∃ d ∈ ds, ∃ q, m.lookup d.name = some q ∧ q.graphId = i := by
  intro ds
  induction ds with
  | nil =>
      intro ps i h hi
      simp [depGraphIds] at h
      subst h
      simp at hi
  | cons d ds ih =>
      intro ps i h hi
      simp only [depGraphIds] at h
      cases hq : m.lookup d.name with
      | none => rw [hq] at h; exact Option.noConfusion h
      | some q =>
          rw [hq] at h
          cases hrest : depGraphIds m ds with
          | none => rw [hrest] at h; exact Option.noConfusion h
          | some rest =>
              rw [hrest] at h
              simp at h
              subst h
              rcases List.mem_cons.mp hi with hhead | htail
              · exact ⟨d, List.mem_cons_self d ds, q, hq, hhead.symm⟩
              · obtain ⟨d', hd', q', hq', hg'⟩ := ih rest i hrest htail
                exact ⟨d', List.mem_cons_of_mem d hd', q', hq', hg'⟩

/-- `fillLoop` preserves names and flags pointwise and only adds parent
edges, each justified by a key whose record's `graphId` addresses the
node and whose dependency ids were read by `depGraphIds`. -/
theorem fillLoop_post (m : PluginMap) :
    ∀ (keys : List String) (nodes nodes' : List Graph.Node),
      fillLoop m keys nodes = some nodes' →
      (∀ j, (nodes'.get? j).map Graph.Node.name
          = (nodes.get? j).map Graph.Node.name) ∧
      (∀ j, (nodes'.get? j).map Graph.Node.flag
          = (nodes.get? j).map Graph.Node.flag) ∧
      (∀ j nd' i, nodes'.get? j = some nd' → i ∈ nd'.parentNodes →
          (∃ nd, nodes.get? j = some nd ∧ i ∈ nd.parentNodes) ∨
          ∃ k p ps, k ∈ keys ∧ m.lookup k = some p ∧ 0 ≤ p.graphId ∧
            p.graphId.toNat = j ∧ depGraphIds m p.info.dependencies = some ps ∧
            i ∈ ps) := by
  intro keys
  induction keys with
  | nil =>
      intro nodes nodes' h
      simp only [fillLoop] at h
      injection h with h
      subst h
      exact ⟨fun j => rfl, fun j => rfl,
        fun j nd' i hj hi => Or.inl ⟨nd', hj, hi⟩⟩
  | cons k ks ih =>
      intro nodes nodes' h
      simp only [fillLoop] at h
      cases hlk : m.lookup k with
      | none => rw [hlk] at h; exact Option.noConfusion h
      | some p =>
          simp only [hlk] at h
          by_cases hg : p.graphId = -1
          · rw [if_neg (by simpa using hg)] at h
            obtain ⟨h1, h2, h3⟩ := ih nodes nodes' h
            refine ⟨h1, h2, ?_⟩
            intro j nd' i hj hi
            rcases h3 j nd' i hj hi with hl | ⟨k', p', ps', hk', hrest⟩
            · exact Or.inl hl
            · exact Or.inr ⟨k', p', ps', List.mem_cons_of_mem k hk', hrest⟩
          · rw [if_pos (by simpa using hg)] at h
            cases hd : depGraphIds m p.info.dependencies with
            | none => rw [hd] at h; exact Option.noConfusion h
            | some ps =>
                simp only [hd] at h
                by_cases hb : p.graphId < 0 ∨ nodes.length ≤ p.graphId.toNat
                · rw [if_pos hb] at h
                  exact Option.noConfusion h
                · rw [if_neg hb] at h
                  obtain ⟨h1, h2, h3⟩ :=
                    ih (appendParents nodes p.graphId.toNat ps) nodes' h
                  have hge : 0 ≤ p.graphId := by omega
                  refine ⟨?_, ?_, ?_⟩
                  · intro j
                    rw [h1 j, appendParents_get]
                    cases hnj : nodes.get? j with
                    | none => rfl
                    | some nd =>
                        by_cases hji : j = p.graphId.toNat <;> simp [hji]
                  · intro j
                    rw [h2 j, appendParents_get]
                    cases hnj : nodes.get? j with
                    | none => rfl
                    | some nd =>
                        by_cases hji : j = p.graphId.toNat <;> simp [hji]
                  · intro j nd' i hj hi
                    rcases h3 j nd' i hj hi with ⟨ndm, hndm, him⟩ | hr
                    · rw [appendParents_get] at hndm
                      cases hnj : nodes.get? j with
                      | none => rw [hnj] at hndm; exact Option.noConfusion hndm
                      | some nd =>
                          rw [hnj] at hndm
                          injection hndm with hndm
                          by_cases hji : j = p.graphId.toNat
                          · simp only [if_pos hji] at hndm
                            rw [← hndm] at him
                            simp only [List.mem_append] at him
                            rcases him with him | him
                            · exact Or.inl ⟨nd, rfl, him⟩
                            · exact Or.inr ⟨k, p, ps, List.mem_cons_self k ks,
                                hlk, hge, hji.symm, hd, him⟩
                          · simp only [if_neg hji] at hndm
                            rw [← hndm] at him
                            exact Or.inl ⟨nd, rfl, him⟩
                    · obtain ⟨k', p', ps', hk', hrest⟩ := hr
                      exact Or.inr ⟨k', p', ps', List.mem_cons_of_mem k hk', hrest⟩

/-- `loadPlugin` only rewrites the instance and library fields of the
activated record: presence, metadata and verdicts are untouched. -/
theorem loadPlugin_sameIV {m m' : PluginMap} {key : String}
    (h : loadPlugin m key = some m') :
    SameIV m m' ∧ m'.map Prod.fst = m.map Prod.fst := by
  unfold loadPlugin at h
  cases hlk : m.lookup key with
  | none => rw [hlk] at h; exact Option.noConfusion h
  | some p =>
      simp only [hlk] at h
      cases hh : p.lib.handle with
      | none => rw [hh] at h; exact Option.noConfusion h
      | some img =>
          simp only [hh] at h
          by_cases hs : "jp_createPlugin" ∈ img.symbols
          · rw [if_pos hs] at h
            by_cases ha : allDepsPresent m p.info.dependencies = true
            · rw [if_pos ha] at h
              injection h with h
              subst h
              exact ⟨update_sameIV m key _ (fun q => ⟨rfl, rfl⟩),
                update_keys m key _⟩
            · rw [if_neg ha] at h
              exact Option.noConfusion h
          · rw [if_neg hs] at h
            exact Option.noConfusion h

/-- `loadPluginsInOrder` composes the per-record activations. -/
theorem loadPluginsInOrder_sameIV :
    ∀ (order : List String) (m m' : PluginMap),
      loadPluginsInOrder m order = some m' →
      SameIV m m' ∧ m'.map Prod.fst = m.map Prod.fst := by
  intro order
  induction order with
  | nil =>
      intro m m' h
      injection h with h
      subst h
      exact ⟨SameIV.refl_siv m, rfl⟩
  | cons k ks ih =>
      intro m m' h
      simp only [loadPluginsInOrder] at h
      cases hlp : loadPlugin m k with
      | none => rw [hlp] at h; exact Option.noConfusion h
      | some m1 =>
          rw [hlp] at h
          obtain ⟨hs1, hk1⟩ := loadPlugin_sameIV hlp
          obtain ⟨hs2, hk2⟩ := ih m1 m' h
          exact ⟨hs1.trans_siv hs2, hk2.trans hk1⟩

theorem nodup_map_of_get {α β : Type} (l : List α) (f : α → β)
    (h : ∀ i1 i2 a1 a2, l.get? i1 = some a1 → l.get? i2 = some a2 →
        f a1 = f a2 → i1 = i2) :
    (l.map f).Nodup := by
  rw [List.nodup_iff_get?_ne_get?]
  intro i j hij hjlen heq
  rw [List.length_map] at hjlen
  have hilen : i < l.length := lt_trans hij hjlen
  rw [List.get?_map, List.get?_map, List.get?_eq_get hilen,
    List.get?_eq_get hjlen] at heq
  simp only [Option.map_some'] at heq
  injection heq with heq
  have := h i j _ _ (List.get?_eq_get hilen) (List.get?_eq_get hjlen) heq
  omega

theorem depGraphIds_complete (m : PluginMap) :
    ∀ (ds : List Dependency) (ps : List Int),
      depGraphIds m ds = some ps →
      ∀ d ∈ ds, ∀ q, m.lookup d.name = some q → q.graphId ∈ ps := by
  intro ds
  induction ds with
  | nil => intro ps h d hd; simp at hd
  | cons d0 ds ih =>
      intro ps h d hd q hq
      simp only [depGraphIds] at h
      cases hq0 : m.lookup d0.name with
      | none => rw [hq0] at h; exact Option.noConfusion h
      | some q0 =>
          rw [hq0] at h
          cases hrest : depGraphIds m ds with
          | none => rw [hrest] at h; exact Option.noConfusion h
          | some rest =>
              rw [hrest] at h
              simp at h
              subst h
              rcases List.mem_cons.mp hd with hd0 | hds
              · subst hd0
                rw [hq0] at hq
                injection hq with hq
                subst hq
                exact List.mem_cons_self _ _
              · exact List.mem_cons_of_mem _ (ih rest hrest d hds q hq)

theorem depGraphIds_total (m : PluginMap) :
    ∀ (ds : List Dependency),
      (∀ d ∈ ds, ∃ q, m.lookup d.name = some q) →
      ∃ ps, depGraphIds m ds = some ps := by
  intro ds
  induction ds with
  | nil => intro _; exact ⟨[], rfl⟩
  | cons d ds ih =>
      intro h
      obtain ⟨q, hq⟩ := h d (List.mem_cons_self d ds)
      obtain ⟨ps, hps⟩ := ih (fun d' hd' => h d' (List.mem_cons_of_mem d hd'))
      exact ⟨q.graphId :: ps, by simp [depGraphIds, hq, hps]⟩

theorem fillLoop_mono (m : PluginMap) :
    ∀ (keys : List String) (nodes nodes' : List Graph.Node),
      fillLoop m keys nodes = some nodes' →
      ∀ j nd, nodes.get? j = some nd →
        ∃ nd', nodes'.get? j = some nd' ∧ ∀ i ∈ nd.parentNodes, i ∈ nd'.parentNodes := by
  intro keys
  induction keys with
  | nil =>
      intro nodes nodes' h j nd hj
      simp only [fillLoop] at h
      injection h with h
      subst h
      exact ⟨nd, hj, fun i hi => hi⟩
  | cons k ks ih =>
      intro nodes nodes' h j nd hj
      simp only [fillLoop] at h
      cases hlk : m.lookup k with
      | none => rw [hlk] at h; exact Option.noConfusion h
      | some p =>
          simp only [hlk] at h
          by_cases hg : p.graphId = -1
          · rw [if_neg (by simpa using hg)] at h
            exact ih nodes nodes' h j nd hj
          · rw [if_pos (by simpa using hg)] at h
            cases hd : depGraphIds m p.info.dependencies with
            | none => rw [hd] at h; exact Option.noConfusion h
            | some ps =>
                simp only [hd] at h
                by_cases hb : p.graphId < 0 ∨ nodes.length ≤ p.graphId.toNat
                · rw [if_pos hb] at h; exact Option.noConfusion h
                · rw [if_neg hb] at h
                  have hap : (appendParents nodes p.graphId.toNat ps).get? j
                      = some (if j = p.graphId.toNat
                          then { nd with parentNodes := nd.parentNodes ++ ps }
                          else nd) := by
                    rw [appendParents_get, hj]
                    rfl
                  by_cases hji : j = p.graphId.toNat
                  · rw [if_pos hji] at hap
                    obtain ⟨nd', hnd', hsub⟩ := ih _ nodes' h j _ hap
                    exact ⟨nd', hnd', fun i hi =>
                      hsub i (by simp only [List.mem_append]; exact Or.inl hi)⟩
                  · rw [if_neg hji] at hap
                    exact ih _ nodes' h j nd hap

theorem fillLoop_complete (m : PluginMap) :
    ∀ (keys : List String) (nodes nodes' : List Graph.Node),
      fillLoop m keys nodes = some nodes' →
      ∀ k p ps, k ∈ keys → m.lookup k = some p → 0 ≤ p.graphId →
        depGraphIds m p.info.dependencies = some ps →
        ∀ i ∈ ps, ∃ nd', nodes'.get? p.graphId.toNat = some nd' ∧
          i ∈ nd'.parentNodes := by
  intro keys
  induction keys with
  | nil => intro nodes nodes' h k p ps hk; simp at hk
  | cons k0 ks ih =>
      intro nodes nodes' h k p ps hk hp hge hd i hi
      simp only [fillLoop] at h
      rcases List.mem_cons.mp hk with hk0 | hks
      · subst hk0
        rw [hp] at h
        simp only at h
        have hgne : ¬p.graphId = -1 := by omega
        rw [if_pos (by simpa using hgne)] at h
        rw [hd] at h
        simp only at h
        by_cases hb : p.graphId < 0 ∨ nodes.length ≤ p.graphId.toNat
        · rw [if_pos hb] at h; exact Option.noConfusion h
        · rw [if_neg hb] at h
          have hlt : p.graphId.toNat < nodes.length := by omega
          have hnd0 : nodes.get? p.graphId.toNat
              = some (nodes.get ⟨p.graphId.toNat, hlt⟩) := List.get?_eq_get hlt
          have hap : (appendParents nodes p.graphId.toNat ps).get? p.graphId.toNat
              = some { nodes.get ⟨p.graphId.toNat, hlt⟩ with
                  parentNodes := (nodes.get ⟨p.graphId.toNat, hlt⟩).parentNodes ++ ps } := by
            rw [appendParents_get, hnd0]
            simp
          obtain ⟨nd', hnd', hsub⟩ := fillLoop_mono m ks _ nodes' h _ _ hap
          exact ⟨nd', hnd', hsub i (by simp only [List.mem_append]; exact Or.inr hi)⟩
      · cases hlk : m.lookup k0 with
        | none => rw [hlk] at h; exact Option.noConfusion h
        | some p0 =>
            simp only [hlk] at h
            by_cases hg0 : p0.graphId = -1
            · rw [if_neg (by simpa using hg0)] at h
              exact ih nodes nodes' h k p ps hks hp hge hd i hi
            · rw [if_pos (by simpa using hg0)] at h
              cases hd0 : depGraphIds m p0.info.dependencies with
              | none => rw [hd0] at h; exact Option.noConfusion h
              | some ps0 =>
                  simp only [hd0] at h
                  by_cases hb : p0.graphId < 0 ∨ nodes.length ≤ p0.graphId.toNat
                  · rw [if_pos hb] at h; exact Option.noConfusion h
                  · rw [if_neg hb] at h
                    exact ih _ nodes' h k p ps hks hp hge hd i hi

theorem sameIV_lookup_back {m m' : PluginMap} (h : SameIV m m') {k : String}
    {p : Plugin} (hp : m'.lookup k = some p) :
    ∃ q, m.lookup k = some q ∧ q.info = p.info ∧
      q.dependenciesExists = p.dependenciesExists := by
  have hk := h k
  rw [hp] at hk
  cases hq : m.lookup k with
  | none => rw [hq] at hk; simp at hk
  | some q =>
      rw [hq] at hk
      simp at hk
      exact ⟨q, rfl, hk.1.symm, hk.2.symm⟩

theorem sameIV_lookup_fwd {m m' : PluginMap} (h : SameIV m m') {k : String}
    {q : Plugin} (hq : m.lookup k = some q) :
    ∃ p, m'.lookup k = some p ∧ p.info = q.info ∧
      p.dependenciesExists = q.dependenciesExists := by
  have hk := h k
  rw [hq] at hk
  cases hp : m'.lookup k with
  | none => rw [hp] at hk; simp at hk
  | some p =>
      rw [hp] at hk
      simp at hk
      exact ⟨p, rfl, hk.1, hk.2⟩

theorem lookup_mem {m : PluginMap} {k : String} {p : Plugin}
    (h : m.lookup k = some p) : (k, p) ∈ m := by
  induction m with
  | nil => exact Option.noConfusion h
  | cons kp rest ih =>
      obtain ⟨k0, p0⟩ := kp
      by_cases hk : k0 = k
      · subst hk
        simp only [PluginMap.lookup, if_pos rfl] at h
        injection h with h
        subst h
        exact List.mem_cons_self _ _
      · simp only [PluginMap.lookup, if_neg hk] at h
        exact List.mem_cons_of_mem _ (ih h)

/-- Executable test of the dependency-satisfaction predicate `DepOK`. -/
def depOKb (m : PluginMap) (d : Dependency) : Bool :=
  match m.lookup d.name with
  | none => false
  | some q =>
      versionCompatible q.info.version d.version
        && decide (q.dependenciesExists = TriBool.True)

/-- Executable test of the registry invariant `GoodTrue`. -/
def goodTrueB (m : PluginMap) : Bool :=
  m.all (fun kp =>
    !(decide (kp.2.dependenciesExists = TriBool.True))
      || kp.2.info.dependencies.all (depOKb m))

theorem depOKb_sound {m : PluginMap} {d : Dependency} (h : depOKb m d = true) :
    DepOK m d := by
  unfold depOKb at h
  cases hq : m.lookup d.name with
  | none => rw [hq] at h; exact Bool.noConfusion h
  | some q =>
      rw [hq] at h
      simp only [Bool.and_eq_true, decide_eq_true_eq] at h
      exact ⟨q, hq, h.1, h.2⟩

theorem goodTrueB_sound {m : PluginMap} (h : goodTrueB m = true) : GoodTrue m := by
  intro k p hp hT d hd
  unfold goodTrueB at h
  rw [List.all_eq_true] at h
  have hkp := h (k, p) (lookup_mem hp)
  simp only [Bool.or_eq_true, Bool.not_eq_true', decide_eq_false_iff_not,
    List.all_eq_true] at hkp
  rcases hkp with hne | hall
  · exact absurd hT hne
  · exact depOKb_sound (hall d hd)

/-- C1: for every registry of records and every `loadPlugins` call that
returns `Success`, the emitted load order contains exactly the records
whose dependency verdict is `True`, each exactly once (the order is
duplicate-free), and is a valid topological order: for every record in
the order, every declared dependency of that record appears strictly
before it. -/
theorem loadPlugins_topological_order (fuel : Nat) (ttc : Bool) (st st' : MgrState)
    (hkeysND : (st.pluginsMap.map Prod.fst).Nodup)
    (hgood : GoodTrue st.pluginsMap)
    (h : loadPlugins fuel ttc st = some (ReturnCodeT.SUCCESS, st')) :
    st'.loadOrderList.Nodup ∧
    (∀ k, k ∈ st'.loadOrderList ↔
        ∃ p, st'.pluginsMap.lookup k = some p ∧
          p.dependenciesExists = TriBool.True) ∧
    (∀ l1 k l2, st'.loadOrderList = l1 ++ k :: l2 →
        ∀ p, st'.pluginsMap.lookup k = some p →
          ∀ d ∈ p.info.dependencies, d.name ∈ l1) := by
  unfold loadPlugins at h
  cases hl1 : loadLoop1 fuel ttc (st.pluginsMap.map Prod.fst) st.pluginsMap [] with
  | none => rw [hl1] at h; exact Option.noConfusion h
  | some res =>
      simp only [hl1] at h
      have hinv0 : LoopInv st.pluginsMap st.pluginsMap [] [] :=
        ⟨hgood, fun k hk => Or.inl hk, VMono.refl_vm _,
          fun j nd hj => by cases j <;> exact Option.noConfusion hj,
          fun k hk => absurd hk (List.not_mem_nil k)⟩
      obtain ⟨H1, H2⟩ := loadLoop1_post fuel ttc (st.pluginsMap.map Prod.fst) []
        st.pluginsMap st.pluginsMap [] res (by simpa using hkeysND) hinv0 hl1
      cases res with
      | inl rcm =>
          obtain ⟨rc0, m1⟩ := rcm
          obtain ⟨hne, -, -, -, -⟩ := H1 rc0 m1 rfl
          injection h with h
          injection h with hrc hst
          exact absurd hrc hne
      | inr mn =>
          obtain ⟨m1, nodes1⟩ := mn
          simp only [] at h
          obtain ⟨hinv, hmono1, hkeys1⟩ := H2 m1 nodes1 rfl
          rw [List.nil_append] at hinv
          obtain ⟨hg1, hfb1, hm01, hnode1, hdone1⟩ := hinv
          cases hfl : fillLoop m1 (st.pluginsMap.map Prod.fst) nodes1 with
          | none => rw [hfl] at h; exact Option.noConfusion h
          | some nodes2 =>
              simp only [hfl] at h
              obtain ⟨hN, hF, hP⟩ := fillLoop_post m1 _ nodes1 nodes2 hfl
              cases hts : Graph.topologicalSort fuel nodes2 with
              | none => rw [hts] at h; exact Option.noConfusion h
              | some ob =>
                  obtain ⟨order, cyc⟩ := ob
                  simp only [hts] at h
                  cases cyc with
                  | true =>
                      injection h with h
                      injection h with hrc hst
                      exact ReturnCodeT.noConfusion hrc
                  | false =>
                      simp only [] at h
                      cases hlo : loadPluginsInOrder m1 order with
                      | none => rw [hlo] at h; exact Option.noConfusion h
                      | some m2 =>
                          simp only [hlo] at h
                          obtain ⟨hsIV, hkeys2⟩ :=
                            loadPluginsInOrder_sameIV order m1 m2 hlo
                          have hst' : st'
                              = { st with pluginsMap := m2, loadOrderList := order } := by
                            by_cases hmain : st.mainPluginName.isEmpty = true
                            · rw [if_pos hmain] at h
                              injection h with h
                              injection h with hrc hst
                              exact hst.symm
                            · rw [if_neg hmain] at h
                              cases hml : m2.lookup st.mainPluginName with
                              | none => rw [hml] at h; exact Option.noConfusion h
                              | some pm =>
                                  simp only [hml] at h
                                  by_cases hip : pm.iplugin = true
                                  · rw [if_pos hip] at h
                                    injection h with h
                                    injection h with hrc hst
                                    exact hst.symm
                                  · rw [if_neg hip] at h
                                    exact Option.noConfusion h
                          subst hst'
                          have hnames2 : nodes2.map Graph.Node.name
                              = nodes1.map Graph.Node.name :=
                            List.ext_get?_iff.mpr (fun j => by
                              rw [List.get?_map, List.get?_map]; exact hN j)
                          have hndnames1 : (nodes1.map Graph.Node.name).Nodup := by
                            apply nodup_map_of_get
                            intro i1 i2 a1 a2 h1 h2 heq
                            obtain ⟨-, -, -, p1, hp1, hg1a, -⟩ := hnode1 i1 a1 h1
                            obtain ⟨-, -, -, p2, hp2, hg2a, -⟩ := hnode1 i2 a2 h2
                            rw [heq] at hp1
                            rw [hp2] at hp1
                            injection hp1 with hp1e
                            have hii : (i1 : Int) = (i2 : Int) := by
                              rw [← hg1a, ← hp1e]
                              exact hg2a
                            exact_mod_cast hii
                          have hndnames2 : (nodes2.map Graph.Node.name).Nodup :=
                            hnames2 ▸ hndnames1
                          have hfl2 : ∀ nd ∈ nodes2, nd.flag = Graph.Flag.UNMARKED := by
                            intro nd hnd
                            obtain ⟨j, hj⟩ := List.get?_of_mem hnd
                            have hFj := hF j
                            rw [hj] at hFj
                            cases h1 : nodes1.get? j with
                            | none => rw [h1] at hFj; simp at hFj
                            | some nd1 =>
                                rw [h1] at hFj
                                simp at hFj
                                obtain ⟨-, hflag, -, -⟩ := hnode1 j nd1 h1
                                rw [hFj, hflag]
                          obtain ⟨hordND, hordMem, hordTopo⟩ :=
                            topologicalSort_correct fuel nodes2 order hndnames2 hfl2 hts
                          refine ⟨hordND, ?_, ?_⟩
                          · intro k
                            constructor
                            · intro hk
                              have hk2 := (hordMem k).mp hk
                              rw [hnames2] at hk2
                              obtain ⟨nd1, hnd1mem, hname⟩ := List.mem_map.mp hk2
                              obtain ⟨j, hj⟩ := List.get?_of_mem hnd1mem
                              obtain ⟨-, -, -, p1, hp1, -, hT1⟩ := hnode1 j nd1 hj
                              rw [hname] at hp1
                              obtain ⟨p2, hp2, -, hdep2⟩ := sameIV_lookup_fwd hsIV hp1
                              exact ⟨p2, hp2, by rw [hdep2]; exact hT1⟩
                            · rintro ⟨p2, hp2, hT2⟩
                              obtain ⟨p1, hp1, -, hdep1⟩ := sameIV_lookup_back hsIV hp2
                              have hT1 : p1.dependenciesExists = TriBool.True := by
                                rw [hdep1]; exact hT2
                              have hkmem : k ∈ st.pluginsMap.map Prod.fst := by
                                have hm := mem_keys_of_lookup hp1
                                rwa [hkeys1] at hm
                              obtain ⟨q, hq, hcase⟩ := hdone1 k hkmem
                              rw [hp1] at hq
                              injection hq with hq
                              subst hq
                              rcases hcase with ⟨-, -, nd, hnd, hname⟩ | ⟨-, hbof⟩
                              · apply (hordMem k).mpr
                                rw [hnames2]
                                exact List.mem_map.mpr ⟨nd, List.get?_mem hnd, hname⟩
                              · exfalso
                                have hvT : m1.verdict k = some TriBool.True := by
                                  unfold PluginMap.verdict
                                  rw [hp1]
                                  simp [hT1]
                                rcases hbof with hfalse | hblocked
                                · rw [hvT] at hfalse
                                  injection hfalse with he
                                  exact TriBool.noConfusion he
                                · exact Blocked.not_true hg1 hblocked hvT
                          · intro l1 k l2 hsplit p2 hp2 d hd
                            have hsplit' : order = l1 ++ k :: l2 := hsplit
                            obtain ⟨p1, hp1, hinfo1, hdep1⟩ :=
                              sameIV_lookup_back hsIV hp2
                            have hd1 : d ∈ p1.info.dependencies := by
                              rw [hinfo1]; exact hd
                            have hkord : k ∈ order := by
                              rw [hsplit']
                              exact List.mem_append_right l1 (List.mem_cons_self k l2)
                            have hk2 := (hordMem k).mp hkord
                            rw [hnames2] at hk2
                            obtain ⟨nd1, hnd1mem, hname⟩ := List.mem_map.mp hk2
                            obtain ⟨j, hj⟩ := List.get?_of_mem hnd1mem
                            obtain ⟨-, -, -, q1, hq1, hq1g, hq1T⟩ := hnode1 j nd1 hj
                            rw [hname] at hq1
                            have hq1e : q1 = p1 := by
                              rw [hq1] at hp1
                              exact Option.some.inj hp1
                            have hd1q : d ∈ q1.info.dependencies := by
                              rw [hq1e]; exact hd1
                            obtain ⟨nd2, hnd2, hnd2name⟩ : ∃ nd2,
                                nodes2.get? j = some nd2 ∧ nd2.name = k := by
                              have hNj := hN j
                              rw [hj] at hNj
                              cases h2 : nodes2.get? j with
                              | none => rw [h2] at hNj; simp at hNj
                              | some nd2 =>
                                  rw [h2] at hNj
                                  simp at hNj
                                  exact ⟨nd2, rfl, by rw [hNj, hname]⟩
                            obtain ⟨qd, hqd, -, hqdT⟩ := hg1 k q1 hq1 hq1T d hd1q
                            have hdmem : d.name ∈ st.pluginsMap.map Prod.fst := by
                              have hm := mem_keys_of_lookup hqd
                              rwa [hkeys1] at hm
                            obtain ⟨qd', hqd', hdcase⟩ := hdone1 d.name hdmem
                            rw [hqd] at hqd'
                            have hqde := Option.some.inj hqd'
                            subst hqde
                            rcases hdcase with ⟨-, hdge, ndd, hndd, hnddname⟩ | ⟨-, hbofd⟩
                            · have htotal : ∀ d' ∈ q1.info.dependencies,
                                  ∃ q', m1.lookup d'.name = some q' := by
                                intro d' hd'
                                obtain ⟨q', hq', -, -⟩ := hg1 k q1 hq1 hq1T d' hd'
                                exact ⟨q', hq'⟩
                              obtain ⟨ps, hps⟩ :=
                                depGraphIds_total m1 q1.info.dependencies htotal
                              have hpsmem : qd.graphId ∈ ps :=
                                depGraphIds_complete m1 _ ps hps d hd1q qd hqd
                              have hq1ge : 0 ≤ q1.graphId := by rw [hq1g]; omega
                              have hkmem : k ∈ st.pluginsMap.map Prod.fst := by
                                have hm := mem_keys_of_lookup hq1
                                rwa [hkeys1] at hm
                              obtain ⟨nd2', hnd2', hedge⟩ :=
                                fillLoop_complete m1 _ nodes1 nodes2 hfl k q1 ps
                                  hkmem hq1 hq1ge hps qd.graphId hpsmem
                              have htn : q1.graphId.toNat = j := by
                                rw [hq1g]; simp
                              rw [htn, hnd2] at hnd2'
                              have hnd2e := Option.some.inj hnd2'
                              obtain ⟨hpge, pn, hpn, hpnmem⟩ :=
                                hordTopo l1 k l2 hsplit' j nd2 hnd2 hnd2name qd.graphId
                                  (by rw [hnd2e]; exact hedge)
                              have hNd := hN qd.graphId.toNat
                              rw [hpn, hndd] at hNd
                              simp at hNd
                              rw [← hnddname, ← hNd]
                              exact hpnmem
                            · exfalso
                              have hvT : m1.verdict d.name = some TriBool.True := by
                                unfold PluginMap.verdict
                                rw [hqd]
                                simp [hqdT]
                              rcases hbofd with hfalse | hblocked
                              · rw [hvT] at hfalse
                                injection hfalse with he
                                exact TriBool.noConfusion he
                              · exact Blocked.not_true hg1 hblocked hvT

/-- A library image exporting the three JustPlug symbols for name `n`. -/
def libC1 (n : String) : SharedLibrary :=
  { handle := some { symbols := ["jp_name", "jp_metadata", "jp_createPlugin"],
                     jpName := n,
                     decodedMeta := { name := n, version := "1.0.0" } } }

/-- A two-record registry: `B` depends on `A` (registered after it). -/
def stC1 : MgrState :=
  { pluginsMap :=
      [("B", { lib := libC1 "B", path := "/plugins/b.so",
               info := { name := "B", version := "1.0.0",
                         dependencies := [⟨"A", "1.0.0"⟩] } }),
       ("A", { lib := libC1 "A", path := "/plugins/a.so",
               info := { name := "A", version := "1.0.0" } })] }

/-- The state `loadPlugins` produces from `stC1`: both verdicts `True`,
graph ids assigned in iteration order, both records activated, and the
load order `["A", "B"]`. -/
def stC1res : MgrState :=
  { pluginsMap :=
      [("B", { iplugin := true, lib := libC1 "B", path := "/plugins/b.so",
               info := { name := "B", version := "1.0.0",
                         dependencies := [⟨"A", "1.0.0"⟩] },
               dependenciesExists := TriBool.True, graphId := 0 }),
       ("A", { iplugin := true, lib := libC1 "A", path := "/plugins/a.so",
               info := { name := "A", version := "1.0.0" },
               dependenciesExists := TriBool.True, graphId := 1 })],
    loadOrderList := ["A", "B"] }

/-- Witness for `loadPlugins_topological_order`: on the concrete chain
registry `stC1` every hypothesis holds and the call emits the
duplicate-free topological order `["A", "B"]`. -/
theorem loadPlugins_topological_order_witness :
    (stC1.pluginsMap.map Prod.fst).Nodup ∧
      (stC1res.loadOrderList.Nodup ∧
        (∀ k, k ∈ stC1res.loadOrderList ↔
            ∃ p, stC1res.pluginsMap.lookup k = some p ∧
              p.dependenciesExists = TriBool.True) ∧
        (∀ l1 k l2, stC1res.loadOrderList = l1 ++ k :: l2 →
            ∀ p, stC1res.pluginsMap.lookup k = some p →
              ∀ d ∈ p.info.dependencies, d.name ∈ l1)) :=
  ⟨by decide, loadPlugins_topological_order 6 true stC1 stC1res (by decide)
    (goodTrueB_sound (by decide)) (by decide)⟩

/-! ### Claim C2: compatible dependency cycles hang the resolver -/

/-- C2: on the registry whose single record `A` declares itself as a
present, version-compatible dependency, the resolver never terminates at
any recursion depth — `checkDependencies` memoizes its verdict only
after the dependency loop, so the cycle is re-entered forever — and
consequently no `loadPlugins` call on this registry completes either.
The claimed behaviour (the check terminates treating the cycle as
satisfied, and the load then returns `DependencyCycle`) is unreachable:
the cycle guard of the topological sort is never reached. -/
theorem selfCycle_load_diverges :
    ∀ (fuel : Nat) (ttc : Bool),
      checkDependencies fuel selfCycleMap "A" = none ∧
      loadPlugins fuel ttc { pluginsMap := selfCycleMap } = none := by
  intro fuel ttc
  refine ⟨selfCycle_checkDependencies_diverges fuel, ?_⟩
  have hset : selfCycleMap.setGraphId "A" (-1) = selfCycleMap := by decide
  have hloop : loadLoop1 fuel ttc (selfCycleMap.map Prod.fst) selfCycleMap [] = none := by
    have hkeys : selfCycleMap.map Prod.fst = ["A"] := rfl
    rw [hkeys]
    simp only [loadLoop1]
    rw [hset, selfCycle_checkDependencies_diverges fuel]
  simp only [loadPlugins]
  rw [hloop]

/-! ### Claim C3: verdicts are not reset between load passes -/

/-- The record `Y` (no dependencies, exporting the factory symbol). -/
def pluginY : Plugin :=
  { lib := libC1 "Y", path := "/plugins/y.so",
    info := { name := "Y", version := "1.0.0" } }

/-- The registry at the second load call: `X` still carries its
memoized `False` verdict from the first call, and the once-missing
dependency `Y` is now registered. -/
def stC3b : MgrState := { pluginsMap := [("X", pluginXFalse), ("Y", pluginY)] }

/-- The state the second load call produces: `X` untouched (still
`False`, no graph node), `Y` checked, activated and loaded. -/
def stC3bres : MgrState :=
  { pluginsMap :=
      [("X", pluginXFalse),
       ("Y", { pluginY with
                 iplugin := true,
                 dependenciesExists := TriBool.True,
                 graphId := 0 })],
    loadOrderList := ["Y"] }

/-- Claim C3 (counterexample): the first load pass marks `X` `False`
(its dependency `Y` is missing); at the second load pass — `Y` now
registered, present, compatible, and even verdict-`True` in the final
state — `X`'s verdict is not reset to `Unknown` and not re-evaluated: it
stays `False` and `X` is excluded from the emitted load order.  Only
`graphId` is reset at the start of a pass; the verdict never is. -/
theorem verdict_not_reset_between_loads :
    loadPlugins 4 true { pluginsMap := [("X", pluginX)] }
        = some (ReturnCodeT.SUCCESS, { pluginsMap := [("X", pluginXFalse)] }) ∧
      loadPlugins 4 true stC3b = some (ReturnCodeT.SUCCESS, stC3bres) ∧
      stC3bres.pluginsMap.verdict "X" = some TriBool.False ∧
      depOKb stC3bres.pluginsMap ⟨"Y", "1.0.0"⟩ = true ∧
      "X" ∉ stC3bres.loadOrderList ∧ "Y" ∈ stC3bres.loadOrderList := by
  refine ⟨by decide, by decide, by decide, by decide, by decide, by decide⟩


/-- C3 (amended): a `loadPlugins` call never resets a determinate
dependency verdict: every record whose verdict is `True` or `False` at
entry still carries exactly that verdict in the state the call returns,
whatever the return code.  In particular a record marked `False` by an
earlier pass is never re-checked, and only `graphId` is reset at the
start of a pass. -/
theorem loadPlugins_preserves_determinate_verdicts (fuel : Nat) (ttc : Bool)
    (st : MgrState) (rc : ReturnCodeT) (st' : MgrState)
    (hkeysND : (st.pluginsMap.map Prod.fst).Nodup)
    (hgood : GoodTrue st.pluginsMap)
    (h : loadPlugins fuel ttc st = some (rc, st')) :
    ∀ k v, st.pluginsMap.verdict k = some v → v ≠ TriBool.Indeterminate →
      st'.pluginsMap.verdict k = some v := by
  intro k v hv hne
  unfold loadPlugins at h
  cases hl1 : loadLoop1 fuel ttc (st.pluginsMap.map Prod.fst) st.pluginsMap [] with
  | none => rw [hl1] at h; exact Option.noConfusion h
  | some res =>
      simp only [hl1] at h
      have hinv0 : LoopInv st.pluginsMap st.pluginsMap [] [] :=
        ⟨hgood, fun k' hk' => Or.inl hk', VMono.refl_vm _,
          fun j nd hj => by cases j <;> exact Option.noConfusion hj,
          fun k' hk' => absurd hk' (List.not_mem_nil k')⟩
      obtain ⟨H1, H2⟩ := loadLoop1_post fuel ttc (st.pluginsMap.map Prod.fst) []
        st.pluginsMap st.pluginsMap [] res (by simpa using hkeysND) hinv0 hl1
      cases res with
      | inl rcm =>
          obtain ⟨rc0, m1⟩ := rcm
          obtain ⟨-, hmono, -, -, -⟩ := H1 rc0 m1 rfl
          injection h with h
          injection h with hrc hst
          rw [← hst]
          exact hmono k v hv hne
      | inr mn =>
          obtain ⟨m1, nodes1⟩ := mn
          simp only [] at h
          obtain ⟨-, hmono1, -⟩ := H2 m1 nodes1 rfl
          cases hfl : fillLoop m1 (st.pluginsMap.map Prod.fst) nodes1 with
          | none => rw [hfl] at h; exact Option.noConfusion h
          | some nodes2 =>
              simp only [hfl] at h
              cases hts : Graph.topologicalSort fuel nodes2 with
              | none => rw [hts] at h; exact Option.noConfusion h
              | some ob =>
                  obtain ⟨order, cyc⟩ := ob
                  simp only [hts] at h
                  cases cyc with
                  | true =>
                      injection h with h
                      injection h with hrc hst
                      rw [← hst]
                      exact hmono1 k v hv hne
                  | false =>
                      simp only [] at h
                      cases hlo : loadPluginsInOrder m1 order with
                      | none => rw [hlo] at h; exact Option.noConfusion h
                      | some m2 =>
                          simp only [hlo] at h
                          obtain ⟨hsIV, -⟩ :=
                            loadPluginsInOrder_sameIV order m1 m2 hlo
                          have hmono2 : VMono st.pluginsMap m2 :=
                            hmono1.trans_vm hsIV.toVMono
                          have hst' : st'.pluginsMap = m2 := by
                            by_cases hmain : st.mainPluginName.isEmpty = true
                            · rw [if_pos hmain] at h
                              injection h with h
                              injection h with hrc hst
                              rw [← hst]
                            · rw [if_neg hmain] at h
                              cases hml : m2.lookup st.mainPluginName with
                              | none => rw [hml] at h; exact Option.noConfusion h
                              | some pm =>
                                  simp only [hml] at h
                                  by_cases hip : pm.iplugin = true
                                  · rw [if_pos hip] at h
                                    injection h with h
                                    injection h with hrc hst
                                    rw [← hst]
                                  · rw [if_neg hip] at h
                                    exact Option.noConfusion h
                          rw [hst']
                          exact hmono2 k v hv hne

/-- Witness for `loadPlugins_preserves_determinate_verdicts`: at the
second-pass registry `stC3b` all hypotheses hold and `X`'s memoized
`False` verdict survives the call. -/
theorem loadPlugins_preserves_determinate_verdicts_witness :
    goodTrueB stC3b.pluginsMap = true ∧
      stC3bres.pluginsMap.verdict "X" = some TriBool.False :=
  ⟨by decide,
    loadPlugins_preserves_determinate_verdicts 4 true stC3b ReturnCodeT.SUCCESS
      stC3bres (by decide) (goodTrueB_sound (by decide)) (by decide)
      "X" TriBool.False (by decide) (by decide)⟩

/-! ### Claim C4: the load order is not cleared by unload -/

/-- A world holding one openable plug-in object at `/plugins/a.so`. -/
def worldC4 : World :=
  [("/plugins/a.so", { symbols := ["jp_name", "jp_metadata", "jp_createPlugin"],
                       jpName := "A",
                       decodedMeta := { name := "A", version := "1.0.0" } })]

/-- The manager state after the search call on `worldC4`. -/
def stC4a : MgrState :=
  { pluginsMap := [("A", { lib := libC1 "A", path := "/plugins/a.so",
                           info := { name := "A", version := "1.0.0" } })],
    locations := ["/plugins"] }

/-- The manager state after the subsequent successful load call. -/
def stC4b : MgrState :=
  { pluginsMap := [("A", { iplugin := true, lib := libC1 "A",
                           path := "/plugins/a.so",
                           info := { name := "A", version := "1.0.0" },
                           dependenciesExists := TriBool.True, graphId := 0 })],
    loadOrderList := ["A"], locations := ["/plugins"] }

/-- The manager state after the final successful unload call: registry
and locations are empty, the load order still holds `"A"`. -/
def stC4c : MgrState := { loadOrderList := ["A"] }

/-- Claim C4 (counterexample): a concrete operation sequence — search,
successful load, unload returning `Success` — after which the registry
and the locations set are empty but the load order is not: it still
holds the name of the unloaded plug-in.  `unloadPluginsInOrder` never
clears `loadOrderList`. -/
theorem unload_leaves_load_order :
    searchForPlugins true ["/plugins/a.so"] worldC4 {} "/plugins"
        = (ReturnCodeT.SUCCESS, stC4a) ∧
      loadPlugins 4 true stC4a = some (ReturnCodeT.SUCCESS, stC4b) ∧
      unloadPlugins stC4b = some (ReturnCodeT.SUCCESS, stC4c) ∧
      stC4c.pluginsMap = [] ∧ stC4c.locations = [] ∧
      stC4c.loadOrderList ≠ [] := by
  refine ⟨by decide, by decide, by decide, by decide, by decide, by decide⟩

/-- C4 (amended): whenever an unload call returns — `Success` included —
the registry and the locations set are empty, but the load-order list is
exactly what it was before the call: it is never cleared. -/
theorem unload_empties_registry_not_order (st : MgrState) (rc : ReturnCodeT)
    (st' : MgrState) (h : unloadPlugins st = some (rc, st')) :
    st'.pluginsMap = [] ∧ st'.locations = [] ∧
      st'.loadOrderList = st.loadOrderList := by
  unfold unloadPlugins unloadPluginsInOrder at h
  cases ho : unloadOrderLoop st.loadOrderList.reverse st.pluginsMap true with
  | none => rw [ho] at h; exact Option.noConfusion h
  | some r =>
      obtain ⟨m1, all1⟩ := r
      rw [ho] at h
      simp only at h
      injection h with h
      injection h with h1 h2
      rw [← h2]
      exact ⟨rfl, rfl, rfl⟩

/-- Witness for `unload_empties_registry_not_order` at the loaded state
`stC4b`. -/
theorem unload_empties_registry_not_order_witness :
    stC4c.pluginsMap = [] ∧ stC4c.locations = [] ∧
      stC4c.loadOrderList = stC4b.loadOrderList :=
  unload_empties_registry_not_order stC4b ReturnCodeT.SUCCESS stC4c (by decide)
